import Mathlib

/-!
pq/money: a fixed-point currency value with string parsing and rendering

A verification development over `money/money.go`.

The Go code goes through `float64` twice: `SetString` parses the literal with
`strconv.ParseFloat`, multiplies by `100` and converts to `int64`; `stringFromInt`
converts the cents to `float64`, divides by `100` and prints with `%0.2f`.  The
development therefore carries an exact model of IEEE-754 binary64 for the operations
used (round to nearest, ties to even), in integer arithmetic.

Conventions:
* `int64` values are `Int`; arithmetic that can overflow wraps with `wrap64`;
* Go strings are `GoString`; a `[]uint8` is the string it decodes to (a text that is
  not valid UTF-8 is outside the model; `validMoney` rejects it);
* a mutating method `func (m *T) f(..) error` is a function returning the new
  receiver together with the optional error.
-/

namespace PqMoney

/-- A Go string. -/
abbrev GoString := String

/-! ## int64 -/

/-- Two's-complement wrap of an integer into the `int64` range. -/
def wrap64 (x : Int) : Int := (x + 2 ^ 63) % 2 ^ 64 - 2 ^ 63

/-- The `int64` range. -/
def inInt64 (x : Int) : Prop := -(2 ^ 63) ≤ x ∧ x < 2 ^ 63

instance (x : Int) : Decidable (inInt64 x) := by unfold inInt64; infer_instance

/-! ## float64

Every finite binary64 value is an integer multiple of `2^-1074` (the smallest
subnormal).  A finite value is stored as its sign and its magnitude counted in
that unit, so that `1.0` has magnitude `2^1074`. -/

/-- Power of two, as a shift. -/
def pow2 (k : Nat) : Nat := 1 <<< k

/-- The unit of magnitude: `one` units make the float `1.0` (`one = 2^1074`). -/
def one : Nat := pow2 1074

/-- Largest finite binary64 magnitude, `(2^53 - 1) * 2^971`, in units of `2^-1074`. -/
def maxFinite : Nat := (pow2 53 - 1) * pow2 2045

/-- A binary64 value that is not a NaN. -/
inductive F64 where
  /-- `(-1)^neg * mag * 2^-1074` -/
  | finite (neg : Bool) (mag : Nat)
  | inf (neg : Bool)
deriving DecidableEq, Repr

/-- Floor of the base-2 logarithm, by halving, 64 halvings at a time while the number
allows it (`fuel` bounds the number of steps). -/
def log2Aux : Nat → Nat → Nat
  | 0, _ => 0
  | fuel + 1, n =>
    if n < 2 then 0
    else if pow2 64 ≤ n then log2Aux fuel (n / pow2 64) + 64
    else log2Aux fuel (n / 2) + 1

/-- Floor of the base-2 logarithm of `n` (`0` for `n = 0`). -/
def log2 (n : Nat) : Nat := log2Aux n n

/-- Nearest integer to `n / d`, ties to the even one. -/
def roundHalfEven (n d : Nat) : Nat :=
  let q := n / d
  let r := n % d
  if 2 * r < d then q else if d < 2 * r then q + 1 else if q % 2 = 0 then q else q + 1

/-- Round the non-negative rational `n / d` to binary64 precision (nearest, ties to even,
exponent unbounded above): the result is a magnitude in units of `2^-1074`.  With
`N / d` the value in units, the spacing of floats around it is `2^s` units where
`s = max (floor (log2 (N / d)) - 52) 0`; `s = 0` is the subnormal range. -/
def roundMag (n d : Nat) : Nat :=
  let N := n * one
  let s := log2 (N / d) - 52
  roundHalfEven N (d * pow2 s) * pow2 s

/-- Package a rounded magnitude: above `maxFinite` the IEEE result is an infinity. -/
def F64.ofMag (neg : Bool) (mag : Nat) : F64 :=
  if maxFinite < mag then .inf neg else .finite neg mag

/-- Conversion `float64(x)` of an integer. -/
def F64.ofInt (x : Int) : F64 := F64.ofMag (decide (x < 0)) (roundMag x.natAbs 1)

/-- Product `f * k` with the float constant `k` (a positive integer that is exactly
representable, here `100`). -/
def F64.mulNat (f : F64) (k : Nat) : F64 :=
  match f with
  | .finite neg mag => F64.ofMag neg (roundMag (mag * k) one)
  | .inf neg => .inf neg

/-- Quotient `f / k` by the float constant `k` (a positive integer that is exactly
representable, here `100`). -/
def F64.divNat (f : F64) (k : Nat) : F64 :=
  match f with
  | .finite neg mag => F64.ofMag neg (roundMag mag (k * one))
  | .inf neg => .inf neg

/-- Comparison `f < 0` (false for both zeros). -/
def F64.ltZero : F64 → Bool
  | .finite neg mag => neg && decide (0 < mag)
  | .inf neg => neg

/-- Product `f * -1`: exact, flips the sign. -/
def F64.negate : F64 → F64
  | .finite neg mag => .finite (!neg) mag
  | .inf neg => .inf (!neg)

/-- Truncation of `f` toward zero, when the truncated value is an `int64`. -/
def F64.trunc64 (f : F64) : Option Int :=
  match f with
  | .finite neg mag =>
    let t : Int := if neg then -((mag / one : Nat) : Int) else ((mag / one : Nat) : Int)
    if inInt64 t then some t else none
  | .inf _ => none

/-- Conversion `int64(f)`: truncation toward zero when the truncated value is
representable.  Otherwise the Go specification leaves the result
implementation-dependent; `cvt f` stands for what the platform produces. -/
def F64.toInt64 (cvt : F64 → Int) (f : F64) : Int :=
  match f.trunc64 with
  | some t => t
  | none => wrap64 (cvt f)

/-- The amd64 conversion (`CVTTSD2SQ`): every out-of-range input gives `-2^63`. -/
def cvtAmd64 : F64 → Int := fun _ => -(2 ^ 63)

/-- The arm64 conversion (`FCVTZS`): out-of-range inputs saturate. -/
def cvtArm64 : F64 → Int
  | .finite neg _ => if neg then -(2 ^ 63) else 2 ^ 63 - 1
  | .inf neg => if neg then -(2 ^ 63) else 2 ^ 63 - 1

/-- Decimal numeral of a natural number, most significant digit first. -/
def decimal (n : Nat) : List Char := Nat.toDigits 10 n

/-- The verb `%0.2f`: sign, integer digits, a point and two fraction digits, the exact
binary value being rounded to two decimals (nearest, ties to even). -/
def F64.format2 : F64 → List Char
  | .finite neg mag =>
    let q := roundHalfEven (mag * 100) one
    (if neg then ['-'] else []) ++ decimal (q / 100) ++
      ['.', Nat.digitChar (q % 100 / 10), Nat.digitChar (q % 10)]
  | .inf neg => if neg then "-Inf".toList else "+Inf".toList

/-! ## Strings -/

/-- Test `strings.Contains(s, c)` for a one-character string `c`. -/
def containsChar (c : Char) (s : List Char) : Bool := s.any (fun x => x == c)

/-- Result of `strings.Replace(s, c, "", -1)` for a one-character string `c`. -/
def removeChar (c : Char) (s : List Char) : List Char := s.filter (fun x => x != c)

/-- Result of `strings.Split(s, sep)` for a one-character separator: the fields between
the occurrences of `sep` (one field more than there are separators). -/
def split (sep : Char) : List Char → List (List Char)
  | [] => [[]]
  | c :: cs =>
    if c = sep then [] :: split sep cs
    else match split sep cs with
      | [] => [[c]]
      | f :: fs => (c :: f) :: fs

/-- The element `str[len(str)-1]`. -/
def lastField (fields : List (List Char)) : List Char := fields.getLastD []

/-! ## Regular expressions

`regexp.MatchString` on a pattern anchored with `^` and `$` (no flags) decides whether
the whole text belongs to the language of the pattern; matching is by Brzozowski
derivatives. -/

/-- Regular expressions over characters, with character classes. -/
inductive Regex where
  | never
  | eps
  | cls (p : Char → Bool)
  | cat (r s : Regex)
  | alt (r s : Regex)
  | star (r : Regex)

namespace Regex

/-- Does the language contain the empty string? -/
def nullable : Regex → Bool
  | never => false
  | eps => true
  | cls _ => false
  | cat r s => r.nullable && s.nullable
  | alt r s => r.nullable || s.nullable
  | star _ => true

/-- Concatenation that drops a branch known to be empty. -/
def mkCat : Regex → Regex → Regex
  | never, _ => never
  | eps, s => s
  | r, s => cat r s

/-- Union that drops a branch known to be empty. -/
def mkAlt : Regex → Regex → Regex
  | never, s => s
  | r, never => r
  | r, s => alt r s

/-- Derivative: the words `w` such that `c :: w` is in the language. -/
def deriv (c : Char) : Regex → Regex
  | never => never
  | eps => never
  | cls p => if p c then eps else never
  | cat r s => if r.nullable then mkAlt (mkCat (deriv c r) s) (deriv c s) else mkCat (deriv c r) s
  | alt r s => mkAlt (deriv c r) (deriv c s)
  | star r => mkCat (deriv c r) (star r)

/-- Whole-text match. -/
def matchString : Regex → List Char → Bool
  | r, [] => r.nullable
  | r, c :: cs => matchString (deriv c r) cs

/-- One literal character. -/
def lit (c : Char) : Regex := cls (fun x => x == c)

/-- The class `\d`: ASCII digits. -/
def digit : Regex := cls (fun x => '0' ≤ x && x ≤ '9')

/-- The class `\s`: tab, newline, form feed, carriage return, space. -/
def space : Regex :=
  cls (fun x => x == '\t' || x == '\n' || x == Char.ofNat 12 || x == '\r' || x == ' ')

/-- Quantifier `r?`. -/
def opt (r : Regex) : Regex := alt r eps

/-- Quantifier `r{n}`. -/
def times (r : Regex) : Nat → Regex
  | 0 => eps
  | n + 1 => cat r (times r n)

/-- Quantifier `r{0,n}`. -/
def upTo (r : Regex) : Nat → Regex
  | 0 => eps
  | n + 1 => opt (cat r (upTo r n))

/-- Quantifier `r{lo,hi}`. -/
def between (r : Regex) (lo hi : Nat) : Regex := cat (times r lo) (upTo r (hi - lo))

end Regex

open Regex in
/-- The integer part `\d{1,3}((\,\d{3})*|\d*)` of `validMoney`. -/
def intPart : Regex :=
  cat (between digit 1 3) (alt (star (cat (lit ',') (times digit 3))) (star digit))

open Regex in
/-- The pattern
`^\-?\(?\$?\s*\-?\s*\(?(((\d{1,3}((\,\d{3})*|\d*))?(\.\d{1,4})?)|((\d{1,3}((\,\d{3})*|\d*))(\.\d{0,4})?))\)?$`. -/
def validMoney : Regex :=
  cat (opt (lit '-')) <| cat (opt (lit '(')) <| cat (opt (lit '$')) <| cat (star space) <|
  cat (opt (lit '-')) <| cat (star space) <| cat (opt (lit '(')) <|
  cat (alt (cat (opt intPart) (opt (cat (lit '.') (between digit 1 4))))
           (cat intPart (opt (cat (lit '.') (between digit 0 4)))))
      (opt (lit ')'))

/-! ## strconv.ParseFloat -/

/-- The two failures of `strconv.ParseFloat`: `ErrSyntax` and `ErrRange`. -/
inductive NumError where
  | malformed
  | outOfRange
deriving DecidableEq, Repr

/-- State of the digit loop of `readFloat`: the digits read so far as a number, how
many of them came after the point, and the flags `sawdot` and `sawdigits`. -/
structure DigitScan where
  mant : Nat
  frac : Nat
  sawdot : Bool
  sawdigits : Bool
deriving DecidableEq, Repr

/-- The digit loop: decimal digits with at most one point.  A second point or any
other character stops the loop before the end of the text, which `ParseFloat`
reports as `ErrSyntax`; that is `none` here. -/
def readDigits : List Char → DigitScan → Option DigitScan
  | [], st => some st
  | c :: cs, st =>
    if c = '.' then
      if st.sawdot then none else readDigits cs { st with sawdot := true }
    else if '0' ≤ c ∧ c ≤ '9' then
      readDigits cs
        { st with
          mant := st.mant * 10 + (c.toNat - 48)
          frac := if st.sawdot then st.frac + 1 else st.frac
          sawdigits := true }
    else none

/-- Split off the optional sign: whether the number is negative, and the rest. -/
def readSign : List Char → Bool × List Char
  | '-' :: cs => (true, cs)
  | '+' :: cs => (false, cs)
  | cs => (false, cs)

/-- The decimal that `readFloat` reads off a text without exponent part, base marker,
underscore or letter: whether it is negative, its digits as a number and how many of
them follow the point, so that the value is `mant / 10^frac`.  The text is an optional
sign, then digits with at most one point and at least one digit; anything else is
`none`. -/
def readDecimal (s : List Char) : Option (Bool × Nat × Nat) :=
  match readDigits (readSign s).2 ⟨0, 0, false, false⟩ with
  | none => none
  | some st => if st.sawdigits then some ((readSign s).1, st.mant, st.frac) else none

/-- Call `strconv.ParseFloat(s, 64)` for a text without exponent part, base marker,
underscore or letter (these never get past `validMoney`; here they count as
`ErrSyntax`).  The decimal value is rounded to the nearest float; a value that rounds
beyond the largest finite float is `ErrRange`. -/
def ParseFloat (s : List Char) : Except NumError F64 :=
  match readDecimal s with
  | none => .error .malformed
  | some (neg, mant, frac) =>
    let mag := roundMag mant (10 ^ frac)
    if maxFinite < mag then .error .outOfRange else .ok (.finite neg mag)

/-! ## Values crossing the database/sql interface -/

/-- What an `interface{}` handed to `Scan`, or a `driver.Value` returned by `Value`,
can hold. -/
inductive DriverValue where
  | nil
  | bytes (b : GoString)
  | str (s : GoString)
  | int64 (i : Int)
  | float64 (f : F64)
  | bool (b : Bool)
deriving DecidableEq, Repr

/-- The errors of the package. -/
inductive Error where
  /-- "String provided does not appear to be a money value.  Value: %s" -/
  | notMoney (amount : GoString)
  /-- The `*strconv.NumError` of `ParseFloat`, with the text it was given. -/
  | parseFloat (num : GoString) (kind : NumError)
  /-- "Value cannot be nil!  Use NullMoney instead" -/
  | nilValue
  /-- "pq/money: Value not of type []uint8.  Type: %s, value: %+v" -/
  | wrongType (value : DriverValue)
deriving DecidableEq, Repr

/-! ## Money -/

/-- The struct `Money`: the amount in cents and its cached rendering. -/
structure Money where
  i_val : Int
  s_val : GoString
deriving DecidableEq, Repr

/-- The zero value `Money{}`. -/
def Money.zero : Money := ⟨0, ""⟩

/-- Function `stringFromInt` (the receiver is not used). -/
def stringFromInt (amount : Int) : GoString :=
  let sign : List Char := if amount < 0 then ['-'] else []
  let new_f := (F64.ofInt amount).divNat 100
  let new_f := if new_f.ltZero then new_f.negate else new_f
  String.mk (sign ++ ['$'] ++ new_f.format2)

/-- Method `String`. -/
def Money.String (m : Money) : GoString := m.s_val

/-- Method `Int64`. -/
def Money.Int64 (m : Money) : Int := m.i_val

/-- Method `Value` of `Money`. -/
def Money.Value (m : Money) : DriverValue × Option Error := (.str m.String, none)

/-- Method `SetInt`. -/
def Money.SetInt (m : Money) (amount : Int) : Money :=
  { m with s_val := stringFromInt amount, i_val := amount }

/-- Function `NewMoney`. -/
def NewMoney (amount : Int) : Money := Money.zero.SetInt amount

/-- Method `Add`; the `int64` sum wraps. -/
def Money.Add (m : Money) (amount : Int) : Money := m.SetInt (wrap64 (m.Int64 + amount))

/-- Method `SetString`: the receiver after the call and the error returned. -/
def Money.SetString (cvt : F64 → Int) (m : Money) (amount : GoString) : Money × Option Error :=
  let negative := containsChar '-' amount.toList
  let amount := removeChar ',' amount.toList
  if !validMoney.matchString amount then (m, some (.notMoney (String.mk amount)))
  else
    let str := split '$' amount
    match ParseFloat (lastField str) with
    | .error kind => (m, some (.parseFloat (String.mk (lastField str)) kind))
    | .ok f_amount =>
      let i_val : Int := (f_amount.mulNat 100).toInt64 cvt
      let i_val : Int := if negative && decide (0 < i_val) then wrap64 (i_val * -1) else i_val
      ({ i_val := i_val, s_val := stringFromInt i_val }, none)

/-- Method `Scan` of `Money`. -/
def Money.Scan (cvt : F64 → Int) (m : Money) (value : DriverValue) : Money × Option Error :=
  match value with
  | .nil => (m, some .nilValue)
  | .bytes raw => m.SetString cvt raw
  | other => (m, some (.wrongType other))

/-! ## NullMoney -/

/-- The struct `NullMoney`; the pointer field is `none` for `nil`. -/
structure NullMoney where
  Money : Option PqMoney.Money
  Valid : Bool
deriving DecidableEq, Repr

/-- Method `SetMoney`. -/
def NullMoney.SetMoney (_nm : NullMoney) (m : Option PqMoney.Money) : NullMoney := ⟨m, true⟩

/-- Method `Scan` of `NullMoney`. -/
def NullMoney.Scan (cvt : F64 → Int) (_nm : NullMoney) (value : DriverValue) : NullMoney × Option Error :=
  match value with
  | .nil => (⟨none, false⟩, none)
  | value =>
    match (NewMoney 0).Scan cvt value with
    | (_, some err) => (⟨none, false⟩, some err)
    | (m, none) => (⟨some m, true⟩, none)

/-- Method `Value` of `NullMoney`; `none` is the run-time panic of calling a method
through a nil `*Money`. -/
def NullMoney.Value (nm : NullMoney) : Option (DriverValue × Option Error) :=
  if !nm.Valid then some (.nil, none)
  else match nm.Money with
    | none => none
    | some m => some m.Value

/-! ## Notions used in the statements -/

/-- The text `SetString` hands to `ParseFloat`: commas removed, then what follows the
last `$`. -/
def numeral (amount : GoString) : List Char :=
  lastField (split '$' (removeChar ',' amount.toList))

/-- The rendering `[-]$D.DD` as the specification words it: a `-` for negative cents,
`$`, the decimal numeral of `|c| / 100`, a point, and `|c| % 100` on two digits. -/
def canonical (c : Int) : GoString :=
  String.mk ((if c < 0 then ['-'] else []) ++ ['$'] ++ decimal (c.natAbs / 100) ++ ['.'] ++
    [Nat.digitChar (c.natAbs % 100 / 10), Nat.digitChar (c.natAbs % 100 % 10)])

/-- The cents value that `stringFromInt` prints: the float quotient
`float64(amount) / 100` rounded to two decimals by `%0.2f`, counted in cents, with the
sign of `amount`. -/
def renderedCents (amount : Int) : Int :=
  let q := roundHalfEven (roundMag (roundMag amount.natAbs 1) (100 * one) * 100) one
  if amount < 0 then -(q : Int) else (q : Int)

/-- The language of a pattern: the texts it matches as a whole. -/
def Regex.Lang : Regex → List Char → Prop
  | .never, _ => False
  | .eps, w => w = []
  | .cls p, w => ∃ c, w = [c] ∧ p c = true
  | .cat r s, w => ∃ u v, w = u ++ v ∧ Lang r u ∧ Lang s v
  | .alt r s, w => Lang r w ∨ Lang s w
  | .star r, w => ∃ ws : List (List Char), w = ws.flatten ∧ ∀ u ∈ ws, Lang r u

/-- Every character class of the pattern lies inside the set `ok`. -/
def Regex.within (ok : Char → Bool) : Regex → Prop
  | .never => True
  | .eps => True
  | .cls p => ∀ c, p c = true → ok c = true
  | .cat r s => within ok r ∧ within ok s
  | .alt r s => within ok r ∧ within ok s
  | .star r => within ok r

/-- The characters `validMoney` mentions: digits, `-`, `(`, `)`, `$`, `.`, `,` and the
white space of `\s`. -/
def moneyChar (c : Char) : Bool :=
  ('0' ≤ c && c ≤ '9') || c == '-' || c == '(' || c == ')' || c == '$' || c == '.' ||
    c == ',' || c == '\t' || c == '\n' || c == Char.ofNat 12 || c == '\r' || c == ' '

/-- The cached display agrees with the cents. -/
def Consistent (m : Money) : Prop := m.String = stringFromInt m.Int64

instance (m : Money) : Decidable (Consistent m) := by unfold Consistent; infer_instance

/-- The literal parses and the truncated product `f_amount * 100` fits `int64`, so that
the conversion `int64(f_amount * 100)` is defined by the Go specification. -/
def productInRange (amount : GoString) : Prop :=
  match ParseFloat (numeral amount) with
  | .ok f => (f.mulNat 100).trunc64.isSome = true
  | .error _ => False

instance (amount : GoString) : Decidable (productInRange amount) := by
  unfold productInRange; split <;> infer_instance

/-- The literal reads as a decimal `mant / 10^frac` of at least one cent
(`0.01 <= mant / 10^frac`). -/
def atLeastOneCent (amount : GoString) : Prop :=
  match readDecimal (numeral amount) with
  | some (_, mant, frac) => 10 ^ frac ≤ mant * 100
  | none => False

/-- The platform never produces 0 when it converts a float that is out of the `int64`
range (amd64 produces `-2^63`; arm64 produces `-2^63` or `2^63 - 1`). -/
def neverZero (cvt : F64 → Int) : Prop := ∀ f : F64, wrap64 (cvt f) ≠ 0

instance (amount : GoString) : Decidable (atLeastOneCent amount) := by
  unfold atLeastOneCent; split <;> infer_instance

/-- The literal reads as a decimal `mant / 10^frac` that is not zero. -/
def nonzeroMagnitude (amount : GoString) : Prop :=
  match readDecimal (numeral amount) with
  | some (_, mant, _) => mant ≠ 0
  | none => False

instance (amount : GoString) : Decidable (nonzeroMagnitude amount) := by
  unfold nonzeroMagnitude; split <;> infer_instance

/-- The class `\d` as a test on characters. -/
def isDigit (c : Char) : Bool := '0' ≤ c && c ≤ '9'

/-- The class `\s` as a test on characters. -/
def isSpace (c : Char) : Bool :=
  c == '\t' || c == '\n' || c == Char.ofNat 12 || c == '\r' || c == ' '

/-- Every character but the point. -/
def noDot (c : Char) : Bool := c != '.'

/-- Wherever the text has a point followed by digits only, these are at most four. -/
def fracAtMost4 (w : List Char) : Prop :=
  ∀ x v : List Char, w = x ++ '.' :: v → (∀ c ∈ v, isDigit c = true) → v.length ≤ 4

/-- The zero value `NullMoney{}`: no `Money`, not valid. -/
def NullMoney.zero : NullMoney := ⟨none, false⟩

/-- A call on a `NullMoney`: `SetMoney(m)`, where `none` is the nil pointer, or
`Scan(value)`. -/
inductive NullCall where
  | setMoney (m : Option Money)
  | scan (value : DriverValue)
deriving DecidableEq, Repr

/-- The receiver after one call (the error `Scan` returns is dropped). -/
def NullMoney.step (cvt : F64 → Int) (nm : NullMoney) : NullCall → NullMoney
  | .setMoney m => nm.SetMoney m
  | .scan value => (nm.Scan cvt value).1

/-- The receiver after a sequence of calls on the zero value. -/
def NullMoney.run (cvt : F64 → Int) (calls : List NullCall) : NullMoney :=
  calls.foldl (NullMoney.step cvt) NullMoney.zero

/-- The validity invariant: `Valid == false` goes with a nil `Money`, `Valid == true`
with a `Money` that is not nil. -/
def NullMoney.WellFormed (nm : NullMoney) : Prop :=
  (nm.Valid = false → nm.Money = none) ∧ (nm.Valid = true → nm.Money ≠ none)

instance (nm : NullMoney) : Decidable nm.WellFormed := by
  unfold NullMoney.WellFormed; infer_instance

end PqMoney

/-! ## Unfolding `SetString` -/

namespace PqMoney

/-- The cents `SetString` stores, from the sign flag and the converted product. -/
theorem SetString_eq (cvt : F64 → Int) (m : Money) (amount : GoString) :
    m.SetString cvt amount =
      if validMoney.matchString (removeChar ',' amount.toList) = true then
        match ParseFloat (numeral amount) with
        | .error kind => (m, some (.parseFloat (String.mk (numeral amount)) kind))
        | .ok f =>
          (⟨if containsChar '-' amount.toList && decide (0 < (f.mulNat 100).toInt64 cvt)
              then wrap64 ((f.mulNat 100).toInt64 cvt * -1) else (f.mulNat 100).toInt64 cvt,
            stringFromInt
              (if containsChar '-' amount.toList && decide (0 < (f.mulNat 100).toInt64 cvt)
                then wrap64 ((f.mulNat 100).toInt64 cvt * -1) else (f.mulNat 100).toInt64 cvt)⟩,
           none)
      else (m, some (.notMoney (String.mk (removeChar ',' amount.toList)))) := by
  unfold Money.SetString numeral
  by_cases h : validMoney.matchString (removeChar ',' amount.toList) = true
  · rw [if_pos h]
    simp only [h, Bool.not_true, Bool.false_eq_true, if_false]
  · rw [if_neg h]
    rw [Bool.not_eq_true] at h
    simp only [h, Bool.not_false, if_true]

/-- A call of `SetString` that succeeds, with the float it parsed and the truncated
product in range. -/
theorem SetString_ok (cvt : F64 → Int) (m : Money) (amount : GoString) (f : F64) (t : Int)
    (hre : validMoney.matchString (removeChar ',' amount.toList) = true)
    (hpf : ParseFloat (numeral amount) = .ok f)
    (ht : (f.mulNat 100).trunc64 = some t) :
    m.SetString cvt amount =
      (⟨if containsChar '-' amount.toList && decide (0 < t) then wrap64 (t * -1) else t,
        stringFromInt
          (if containsChar '-' amount.toList && decide (0 < t) then wrap64 (t * -1) else t)⟩,
       none) := by
  rw [SetString_eq, if_pos hre, hpf]
  simp only [F64.toInt64, ht]

/-- Either `SetString` fails and leaves the receiver alone, or it succeeds and stores
some cents together with their rendering. -/
theorem SetString_cases (cvt : F64 → Int) (m : Money) (amount : GoString) :
    (∃ e, m.SetString cvt amount = (m, some e)) ∨
    (∃ i, m.SetString cvt amount = (⟨i, stringFromInt i⟩, none)) := by
  rw [SetString_eq]
  by_cases h : validMoney.matchString (removeChar ',' amount.toList) = true
  · rw [if_pos h]
    cases ParseFloat (numeral amount) with
    | error kind => exact Or.inl ⟨_, rfl⟩
    | ok f => exact Or.inr ⟨_, rfl⟩
  · rw [if_neg h]
    exact Or.inl ⟨_, rfl⟩

/-- Either `Scan` fails and leaves the receiver alone, or it succeeds and stores some
cents together with their rendering. -/
theorem Scan_cases (cvt : F64 → Int) (m : Money) (value : DriverValue) :
    (∃ e, m.Scan cvt value = (m, some e)) ∨
    (∃ i, m.Scan cvt value = (⟨i, stringFromInt i⟩, none)) := by
  cases value with
  | bytes raw => exact SetString_cases cvt m raw
  | nil => exact Or.inl ⟨_, rfl⟩
  | str s => exact Or.inl ⟨_, rfl⟩
  | int64 i => exact Or.inl ⟨_, rfl⟩
  | float64 f => exact Or.inl ⟨_, rfl⟩
  | bool b => exact Or.inl ⟨_, rfl⟩

/-- What a successful `SetString` did: the pattern matched, `ParseFloat` returned a
float `f`, and the cents are the converted product `f * 100`, negated when the input
has a `-` and the conversion came out positive. -/
theorem SetString_success (cvt : F64 → Int) (m : Money) (amount : GoString)
    (h : (m.SetString cvt amount).2 = none) :
    ∃ f, validMoney.matchString (removeChar ',' amount.toList) = true ∧
      ParseFloat (numeral amount) = .ok f ∧
      (m.SetString cvt amount).1.Int64 =
        if containsChar '-' amount.toList && decide (0 < (f.mulNat 100).toInt64 cvt)
          then wrap64 ((f.mulNat 100).toInt64 cvt * -1) else (f.mulNat 100).toInt64 cvt := by
  rw [SetString_eq] at h ⊢
  by_cases hre : validMoney.matchString (removeChar ',' amount.toList) = true
  · rw [if_pos hre] at h ⊢
    cases hpf : ParseFloat (numeral amount) with
    | error kind => rw [hpf] at h; cases h
    | ok f => exact ⟨f, hre, rfl, rfl⟩
  · rw [if_neg hre] at h
    cases h


/-! ## Arithmetic of the float model -/

theorem pow2_eq (k : Nat) : pow2 k = 2 ^ k := Nat.one_shiftLeft k

theorem pow2_pos (k : Nat) : 0 < pow2 k := by
  rw [pow2_eq]; exact Nat.pow_pos (by decide)

theorem pow2_add (a b : Nat) : pow2 a * pow2 b = pow2 (a + b) := by
  rw [pow2_eq, pow2_eq, pow2_eq, pow_add]

theorem pow2_mono (a b : Nat) (h : a ≤ b) : pow2 a ≤ pow2 b := by
  rw [pow2_eq, pow2_eq]
  exact Nat.pow_le_pow_right (by decide) h

theorem one_eq_pow2 : one = pow2 1074 := rfl

theorem one_pos : 0 < one := pow2_pos 1074

theorem pow2_le_pow (a b : Nat) (h : a ≤ b) : pow2 a ≤ 2 ^ b := by
  rw [pow2_eq]
  exact Nat.pow_le_pow_right (by decide) h

theorem log2Aux_spec (fuel : Nat) :
    ∀ n : Nat, n ≤ fuel → 1 ≤ n →
      2 ^ log2Aux fuel n ≤ n ∧ n < 2 ^ (log2Aux fuel n + 1) := by
  induction fuel with
  | zero => intro n h1 h2; omega
  | succ fuel ih =>
    intro n hle hpos
    unfold log2Aux
    by_cases h : n < 2
    · rw [if_pos h]
      have : n = 1 := by omega
      subst this
      simp
    · rw [if_neg h]
      by_cases hbig : pow2 64 ≤ n
      · rw [if_pos hbig]
        have hp : 0 < pow2 64 := pow2_pos 64
        have h64 : pow2 64 = 2 ^ 64 := pow2_eq 64
        have h3 : 1 ≤ n / pow2 64 := (Nat.le_div_iff_mul_le hp).mpr (by omega)
        have h2 : n / pow2 64 ≤ fuel := by
          have : n / pow2 64 ≤ n / 2 := by
            rw [h64]
            exact Nat.div_le_div_left (by norm_num) (by norm_num)
          omega
        obtain ⟨ha, hb⟩ := ih (n / pow2 64) h2 h3
        rw [h64] at ha hb
        constructor
        · rw [pow_add]
          exact (Nat.le_div_iff_mul_le (Nat.pow_pos (by decide))).mp ha
        · have e : log2Aux fuel (n / 2 ^ 64) + 64 + 1 = (log2Aux fuel (n / 2 ^ 64) + 1) + 64 := by
            omega
          rw [h64, e, pow_add]
          exact (Nat.div_lt_iff_lt_mul (Nat.pow_pos (by decide))).mp hb
      · rw [if_neg hbig]
        have h2 : n / 2 ≤ fuel := by omega
        have h3 : 1 ≤ n / 2 := by omega
        obtain ⟨ha, hb⟩ := ih (n / 2) h2 h3
        constructor
        · rw [pow_succ]; omega
        · rw [pow_succ]; omega

/-- The floor logarithm brackets its argument. -/
theorem log2_spec (n : Nat) (h : 1 ≤ n) : 2 ^ log2 n ≤ n ∧ n < 2 ^ (log2 n + 1) :=
  log2Aux_spec n n (Nat.le_refl n) h

theorem log2_zero : log2 0 = 0 := rfl

theorem log2_lt_of_lt_pow (n k : Nat) (hk : 0 < k) (h : n < 2 ^ k) : log2 n < k := by
  rcases Nat.eq_zero_or_pos n with h0 | h0
  · subst h0; rw [log2_zero]; exact hk
  · have h1 := (log2_spec n h0).1
    have h2 : 2 ^ log2 n < 2 ^ k := Nat.lt_of_le_of_lt h1 h
    exact (Nat.pow_lt_pow_iff_right (by decide : 1 < 2)).mp h2

theorem log2_lt_of_lt_pow2 (n k : Nat) (hk : 0 < k) (h : n < pow2 k) : log2 n < k :=
  log2_lt_of_lt_pow n k hk (by rw [← pow2_eq]; exact h)

theorem le_log2_of_pow_le (n k : Nat) (h : 2 ^ k ≤ n) : k ≤ log2 n := by
  have h0 : 1 ≤ n := Nat.le_trans (Nat.one_le_two_pow) h
  have h1 := (log2_spec n h0).2
  have h2 : 2 ^ k < 2 ^ (log2 n + 1) := Nat.lt_of_le_of_lt h h1
  have := (Nat.pow_lt_pow_iff_right (by decide : 1 < 2)).mp h2
  omega

/-- The rounded quotient is within half a unit of the exact one. -/
theorem roundHalfEven_err (n d : Nat) (hd : 0 < d) :
    2 * (roundHalfEven n d * d) ≤ 2 * n + d ∧ 2 * n ≤ 2 * (roundHalfEven n d * d) + d := by
  have hdm : d * (n / d) + n % d = n := Nat.div_add_mod n d
  have hr : n % d < d := Nat.mod_lt n hd
  have e1 : (n / d) * d = d * (n / d) := Nat.mul_comm _ _
  have e2 : (n / d + 1) * d = d * (n / d) + d := by rw [Nat.add_mul, e1, Nat.one_mul]
  unfold roundHalfEven
  simp only
  split_ifs <;> (first | rw [e1] | rw [e2]) <;> omega

/-- A quotient within less than half a unit of an integer rounds to it. -/
theorem roundHalfEven_eq (n d k : Nat) (h1 : 2 * n < 2 * (k * d) + d)
    (h2 : 2 * (k * d) < 2 * n + d) : roundHalfEven n d = k := by
  have hd : 0 < d := by
    rcases Nat.eq_zero_or_pos d with h | h
    · subst h; omega
    · exact h
  obtain ⟨ha, hb⟩ := roundHalfEven_err n d hd
  have hlt : roundHalfEven n d * d < (k + 1) * d := by
    rw [Nat.add_mul, Nat.one_mul]; omega
  have hgt : k * d < (roundHalfEven n d + 1) * d := by
    rw [Nat.add_mul, Nat.one_mul]; omega
  have := Nat.lt_of_mul_lt_mul_right hlt
  have := Nat.lt_of_mul_lt_mul_right hgt
  omega

/-- Rounding never goes below an integer that the quotient reaches. -/
theorem le_roundHalfEven (n d k : Nat) (hd : 0 < d) (h : 2 * (k * d) < 2 * n + d) :
    k ≤ roundHalfEven n d := by
  obtain ⟨_, hb⟩ := roundHalfEven_err n d hd
  have hgt : k * d < (roundHalfEven n d + 1) * d := by
    rw [Nat.add_mul, Nat.one_mul]; omega
  have := Nat.lt_of_mul_lt_mul_right hgt
  omega

/-- Rounding never goes above an integer that bounds the quotient. -/
theorem roundHalfEven_le (n d k : Nat) (hd : 0 < d) (h : 2 * n < 2 * (k * d) + d) :
    roundHalfEven n d ≤ k := by
  obtain ⟨ha, _⟩ := roundHalfEven_err n d hd
  have hlt : roundHalfEven n d * d < (k + 1) * d := by
    rw [Nat.add_mul, Nat.one_mul]; omega
  have := Nat.lt_of_mul_lt_mul_right hlt
  omega

/-- The spacing exponent of `roundMag`. -/
theorem roundMag_eq (n d : Nat) :
    roundMag n d =
      roundHalfEven (n * one) (d * 2 ^ (log2 (n * one / d) - 52)) * 2 ^ (log2 (n * one / d) - 52) := by
  unfold roundMag
  simp only [pow2_eq]

/-- The rounding error of `roundMag` is at most half the spacing. -/
theorem roundMag_err (n d : Nat) (hd : 0 < d) :
    2 * (roundMag n d * d) ≤ 2 * (n * one) + d * 2 ^ (log2 (n * one / d) - 52) ∧
    2 * (n * one) ≤ 2 * (roundMag n d * d) + d * 2 ^ (log2 (n * one / d) - 52) := by
  rw [roundMag_eq]
  have hD : 0 < d * 2 ^ (log2 (n * one / d) - 52) := Nat.mul_pos hd (Nat.pow_pos (by decide))
  have h := roundHalfEven_err (n * one) (d * 2 ^ (log2 (n * one / d) - 52)) hD
  have e : roundHalfEven (n * one) (d * 2 ^ (log2 (n * one / d) - 52)) *
      2 ^ (log2 (n * one / d) - 52) * d =
      roundHalfEven (n * one) (d * 2 ^ (log2 (n * one / d) - 52)) *
      (d * 2 ^ (log2 (n * one / d) - 52)) := by ring
  rw [e]
  exact h

/-! ## Rendering is exact below `100 * 2^46` cents -/


set_option maxRecDepth 100000 in
theorem maxFinite_ge : pow2 53 * one ≤ maxFinite := by decide

set_option maxRecDepth 100000 in
theorem spacing_small : 100 * pow2 1067 < one := by decide

theorem roundHalfEven_zero (d : Nat) (hd : 0 < d) : roundHalfEven 0 d = 0 :=
  roundHalfEven_eq 0 d 0 (by omega) (by omega)

theorem roundHalfEven_mul (k d : Nat) (hd : 0 < d) : roundHalfEven (k * d) d = k :=
  roundHalfEven_eq (k * d) d k (by omega) (by omega)

/-- An integer below `2^53` converts to `float64` exactly. -/
theorem roundMag_int (a : Nat) (ha : a < pow2 53) : roundMag a 1 = a * one := by
  rw [roundMag_eq, Nat.div_one, Nat.one_mul]
  rcases Nat.eq_zero_or_pos a with h0 | h0
  · subst h0
    rw [Nat.zero_mul, roundHalfEven_zero _ (Nat.pow_pos (by decide)), Nat.zero_mul]
  · have hlt : a * one < pow2 1127 := by
      have e : pow2 53 * pow2 1074 = pow2 1127 := pow2_add 53 1074
      rw [← e, one_eq_pow2]
      exact Nat.mul_lt_mul_of_pos_right ha (pow2_pos 1074)
    have hL : log2 (a * one) < 1127 := log2_lt_of_lt_pow2 _ _ (by decide) hlt
    have hs : log2 (a * one) - 52 ≤ 1074 := by omega
    obtain ⟨j, hj⟩ : ∃ j, 1074 = (log2 (a * one) - 52) + j := ⟨1074 - (log2 (a * one) - 52), by omega⟩
    have hone : one = 2 ^ j * 2 ^ (log2 (a * one) - 52) := by
      rw [← pow_add, Nat.add_comm, ← hj, one_eq_pow2, pow2_eq]
    have hN : a * one = (a * 2 ^ j) * 2 ^ (log2 (a * one) - 52) := by
      rw [Nat.mul_assoc, ← hone]
    generalize log2 (a * one) - 52 = s at *
    rw [hN, roundHalfEven_mul _ _ (Nat.pow_pos (by decide))]

/-- The quotient by `100` of an exact amount below `100 * 2^46`, scaled back by `100`,
is within less than half a cent of the amount. -/
theorem div100_close (a : Nat) (ha : a < 100 * pow2 46) :
    200 * roundMag (a * one) (100 * one) ≤ 2 * (a * one) + 100 * pow2 1067 ∧
    2 * (a * one) ≤ 200 * roundMag (a * one) (100 * one) + 100 * pow2 1067 := by
  have hd : 0 < 100 * one := Nat.mul_pos (by decide) one_pos
  obtain ⟨h1, h2⟩ := roundMag_err (a * one) (100 * one) hd
  have hq : a * one * one / (100 * one) = a * one / 100 :=
    Nat.mul_div_mul_right _ _ one_pos
  rw [hq] at h1 h2
  have hlt : a * one / 100 < pow2 1120 := by
    apply Nat.div_lt_of_lt_mul
    have e : 100 * pow2 46 * pow2 1074 = 100 * pow2 1120 := by
      rw [Nat.mul_assoc]
      exact congrArg (fun x => 100 * x) (pow2_add 46 1074)
    rw [← e, one_eq_pow2]
    exact Nat.mul_lt_mul_of_pos_right ha (pow2_pos 1074)
  have hL : log2 (a * one / 100) < 1120 := log2_lt_of_lt_pow2 _ _ (by decide) hlt
  have hs : 2 ^ (log2 (a * one / 100) - 52) ≤ pow2 1067 := by
    rw [← pow2_eq]
    exact pow2_mono _ _ (by omega)
  generalize 2 ^ (log2 (a * one / 100) - 52) = p at *
  generalize roundMag (a * one) (100 * one) = R at *
  have e1 : 2 * (R * (100 * one)) = (200 * R) * one := by ring
  have e2 : 2 * (a * one * one) + 100 * one * p = (2 * (a * one) + 100 * p) * one := by ring
  have e3 : 2 * (R * (100 * one)) + 100 * one * p = (200 * R + 100 * p) * one := by ring
  rw [e1, e2] at h1
  rw [e3] at h2
  have e4 : 2 * (a * one * one) = (2 * (a * one)) * one := by ring
  rw [e4] at h2
  have h1' := Nat.le_of_mul_le_mul_right h1 one_pos
  have h2' := Nat.le_of_mul_le_mul_right h2 one_pos
  constructor <;> omega

set_option maxRecDepth 100000 in
theorem bound_lt_pow2_53 : 100 * pow2 46 < pow2 53 := by decide

set_option maxRecDepth 100000 in
theorem bound_eq : 100 * pow2 46 = 7036874417766400 := by decide

/-- The `%0.2f` rounding of the quotient gives back the cents. -/
theorem format2_cents (a : Nat) (ha : a < 100 * pow2 46) :
    roundHalfEven (roundMag (a * one) (100 * one) * 100) one = a := by
  obtain ⟨h1, h2⟩ := div100_close a ha
  have hs := spacing_small
  apply roundHalfEven_eq <;> omega

/-- The float `float64(c) / 100` for an amount below `100 * 2^46` in magnitude. -/
theorem ofInt_div100 (c : Int) (ha : c.natAbs < 100 * pow2 46) :
    (F64.ofInt c).divNat 100 =
      .finite (decide (c < 0)) (roundMag (c.natAbs * one) (100 * one)) := by
  have h53 : c.natAbs < pow2 53 := Nat.lt_trans ha bound_lt_pow2_53
  have hM : c.natAbs * one ≤ maxFinite :=
    Nat.le_trans (Nat.mul_le_mul_right one (Nat.le_of_lt h53)) maxFinite_ge
  have h1 := (div100_close c.natAbs ha).1
  have hs := spacing_small
  have hone : one ≤ maxFinite :=
    Nat.le_trans (Nat.le_mul_of_pos_left one (pow2_pos 53)) maxFinite_ge
  have hR : roundMag (c.natAbs * one) (100 * one) ≤ maxFinite := by omega
  unfold F64.ofInt
  rw [roundMag_int _ h53]
  unfold F64.ofMag
  rw [if_neg (Nat.not_lt.mpr hM)]
  unfold F64.divNat
  simp only
  unfold F64.ofMag
  rw [if_neg (Nat.not_lt.mpr hR)]

/-- The rendering below the bound, as a list of characters. -/
theorem stringFromInt_lt (c : Int) (ha : c.natAbs < 100 * pow2 46) :
    stringFromInt c = canonical c := by
  have hq := format2_cents c.natAbs ha
  have h2 := (div100_close c.natAbs ha).2
  have hs := spacing_small
  have hmod : c.natAbs % 10 = c.natAbs % 100 % 10 := by omega
  unfold stringFromInt canonical
  simp only
  rw [ofInt_div100 c ha]
  by_cases hc : c < 0
  · have hpos : 0 < roundMag (c.natAbs * one) (100 * one) := by
      have : 1 ≤ c.natAbs := by omega
      have : one ≤ c.natAbs * one := Nat.le_mul_of_pos_left one this
      omega
    simp only [hc, decide_True, F64.ltZero, hpos, Bool.and_self, if_true, F64.negate,
      Bool.not_true, F64.format2, hq, Bool.false_eq_true, if_false, hmod,
      List.append_assoc, List.nil_append]
    rfl
  · simp only [hc, decide_False, F64.ltZero, Bool.false_and, Bool.false_eq_true, if_false,
      F64.format2, hq, hmod, List.append_assoc, List.nil_append]
    rfl

set_option maxRecDepth 100000 in
/-- The rendering is the canonical string up to `100 * 2^46` cents in magnitude. -/
theorem stringFromInt_canonical (c : Int) (h : c.natAbs ≤ 7036874417766400) :
    stringFromInt c = canonical c := by
  rcases Nat.lt_or_eq_of_le h with hlt | heq
  · exact stringFromInt_lt c (by rw [bound_eq]; exact hlt)
  · have hc : c = 7036874417766400 ∨ c = -7036874417766400 := by omega
    rcases hc with hc | hc <;> subst hc <;> decide


/-! ## Signs -/

theorem wrap64_inInt64 (x : Int) : inInt64 (wrap64 x) := by
  unfold inInt64 wrap64
  omega

theorem trunc64_inInt64 (f : F64) (t : Int) (h : f.trunc64 = some t) : inInt64 t := by
  cases f with
  | inf neg => simp [F64.trunc64] at h
  | finite neg mag =>
    cases neg <;> simp only [F64.trunc64, Bool.false_eq_true, if_false, if_true] at h <;>
      split_ifs at h with h1 <;> cases h <;> exact h1

/-- The conversion `int64(f)` is an `int64` on every platform. -/
theorem toInt64_inInt64 (cvt : F64 → Int) (f : F64) : inInt64 (f.toInt64 cvt) := by
  unfold F64.toInt64
  cases h : f.trunc64 with
  | none => exact wrap64_inInt64 _
  | some t => exact trunc64_inInt64 f t h

theorem containsChar_iff (c : Char) (s : List Char) : containsChar c s = true ↔ c ∈ s := by
  unfold containsChar
  simp

theorem mem_of_mem_removeChar (x c : Char) (s : List Char) (h : x ∈ removeChar c s) : x ∈ s := by
  unfold removeChar at h
  exact (List.mem_filter.mp h).1

theorem split_ne_nil (sep : Char) (s : List Char) : split sep s ≠ [] := by
  cases s with
  | nil => simp [split]
  | cons c cs =>
    unfold split
    split_ifs
    · simp
    · cases split sep cs <;> simp

theorem mem_of_mem_split (sep x : Char) :
    ∀ (s : List Char) (f : List Char), f ∈ split sep s → x ∈ f → x ∈ s := by
  intro s
  induction s with
  | nil =>
    intro f hf hx
    simp only [split, List.mem_singleton] at hf
    subst hf
    exact hx
  | cons c cs ih =>
    intro f hf hx
    unfold split at hf
    split_ifs at hf with hc
    · rcases List.mem_cons.mp hf with h | h
      · subst h; cases hx
      · exact List.mem_cons_of_mem _ (ih f h hx)
    · cases hs : split sep cs with
      | nil => exact absurd hs (split_ne_nil sep cs)
      | cons g gs =>
        rw [hs] at hf
        simp only at hf
        rcases List.mem_cons.mp hf with h | h
        · subst h
          rcases List.mem_cons.mp hx with h' | h'
          · subst h'; exact List.mem_cons_self _ _
          · exact List.mem_cons_of_mem _ (ih g (by rw [hs]; exact List.mem_cons_self _ _) h')
        · exact List.mem_cons_of_mem _ (ih f (by rw [hs]; exact List.mem_cons_of_mem _ h) hx)

/-- Every character of the text handed to `ParseFloat` is a character of the input. -/
theorem mem_of_mem_numeral (x : Char) (amount : GoString) (h : x ∈ numeral amount) :
    x ∈ amount.toList := by
  unfold numeral lastField at h
  have hne := split_ne_nil '$' (removeChar ',' amount.toList)
  have hmem : (split '$' (removeChar ',' amount.toList)).getLastD [] ∈
      split '$' (removeChar ',' amount.toList) := by
    cases hs : split '$' (removeChar ',' amount.toList) with
    | nil => exact absurd hs hne
    | cons g gs =>
      exact List.getLast_mem (List.cons_ne_nil g gs)
  exact mem_of_mem_removeChar _ _ _ (mem_of_mem_split '$' x _ _ hmem h)

theorem readSign_neg (s : List Char) (h : (readSign s).1 = true) : '-' ∈ s := by
  unfold readSign at h
  split at h
  · exact List.mem_cons_self _ _
  · cases h
  · cases h

/-- A float that `ParseFloat` returns is finite, with the sign the text starts with. -/
theorem ParseFloat_ok (s : List Char) (f : F64) (h : ParseFloat s = .ok f) :
    ∃ mant frac, readDecimal s = some ((readSign s).1, mant, frac) ∧
      f = .finite (readSign s).1 (roundMag mant (10 ^ frac)) ∧
      roundMag mant (10 ^ frac) ≤ maxFinite := by
  unfold ParseFloat at h
  cases hd : readDecimal s with
  | none => rw [hd] at h; cases h
  | some r =>
    obtain ⟨neg, mant, frac⟩ := r
    rw [hd] at h
    simp only at h
    have hneg : neg = (readSign s).1 := by
      unfold readDecimal at hd
      cases hr : readDigits (readSign s).2 ⟨0, 0, false, false⟩ with
      | none => rw [hr] at hd; cases hd
      | some st =>
        rw [hr] at hd
        simp only at hd
        split_ifs at hd
        cases hd
        rfl
    subst hneg
    split_ifs at h with hlt
    cases h
    exact ⟨mant, frac, rfl, rfl, Nat.not_lt.mp hlt⟩

/-- A float that is not negative truncates to a non-negative integer. -/
theorem trunc64_nonneg (mag : Nat) (t : Int)
    (h : (F64.ofMag false mag).trunc64 = some t) : 0 ≤ t := by
  unfold F64.ofMag at h
  by_cases hinf : maxFinite < mag
  · rw [if_pos hinf] at h
    cases h
  · rw [if_neg hinf] at h
    unfold F64.trunc64 at h
    simp only [Bool.false_eq_true, if_false] at h
    by_cases hin : inInt64 ((mag / one : Nat) : Int)
    · rw [if_pos hin] at h
      cases h
      exact Int.natCast_nonneg _
    · rw [if_neg hin] at h
      cases h


/-! ## An amount of at least one cent does not truncate to zero -/

/-- From the binade `2^52` on, rounding does not go below the power of two under the
value. -/
theorem roundMag_ge_pow (n d : Nat) (hd : 0 < d) (h1 : 1 ≤ n * one / d)
    (h52 : 52 ≤ log2 (n * one / d)) : 2 ^ log2 (n * one / d) ≤ roundMag n d := by
  rw [roundMag_eq]
  have hspec := (log2_spec (n * one / d) h1).1
  have hmul : 2 ^ log2 (n * one / d) * d ≤ n * one := (Nat.le_div_iff_mul_le hd).mp hspec
  obtain ⟨s, hs⟩ : ∃ s, log2 (n * one / d) = 52 + s := ⟨log2 (n * one / d) - 52, by omega⟩
  have hsub : log2 (n * one / d) - 52 = s := by omega
  rw [hsub]
  rw [hs, pow_add] at hmul ⊢
  have hp : 0 < 2 ^ s := Nat.pow_pos (by decide)
  have hD : 0 < d * 2 ^ s := Nat.mul_pos hd hp
  have hk : 2 ^ 52 ≤ roundHalfEven (n * one) (d * 2 ^ s) := by
    apply le_roundHalfEven _ _ _ hD
    have e : 2 ^ 52 * (d * 2 ^ s) = 2 ^ 52 * 2 ^ s * d := by ring
    rw [e]
    omega
  exact Nat.mul_le_mul_right _ hk

theorem spacing_cent : 100 * pow2 1067 ≤ one := by decide

theorem cent_upper_binade : one ≤ pow2 1068 * 100 := by decide

theorem cent_mantissa :
    200 * 5764607523034235 * pow2 1015 < 2 * one + 100 * pow2 1015 := by decide

theorem cent_float : one ≤ 5764607523034235 * pow2 1015 * 100 := by decide

theorem cent_scaled (K p o n d : Nat) (hK : 200 * K * p < 2 * o + 100 * p) (h0 : 0 < d)
    (hd : d ≤ n * 100) : 2 * (K * (d * p)) < 2 * (n * o) + d * p := by
  · have h1 : (200 * K * p + 1) * d ≤ (2 * o + 100 * p) * d := Nat.mul_le_mul_right d hK
    have h2 : (2 * o) * d ≤ (2 * o) * (n * 100) := Nat.mul_le_mul_left _ hd
    have e1 : (200 * K * p + 1) * d = 100 * (2 * (K * (d * p))) + d := by ring
    have e2 : (2 * o + 100 * p) * d = (2 * o) * d + 100 * (d * p) := by ring
    have e3 : (2 * o) * (n * 100) = 100 * (2 * (n * o)) := by ring
    rw [e1, e2] at h1
    rw [e3] at h2
    omega

/-- A decimal of at least `0.01` rounds to a float whose product with `100` is at
least `1`. -/
theorem cent_lower (n d : Nat) (hd : 0 < d) (h : d ≤ n * 100) :
    one ≤ roundMag n d * 100 := by
  have hX : pow2 1067 ≤ n * one / d := by
    apply (Nat.le_div_iff_mul_le hd).mpr
    have h1 : pow2 1067 * d ≤ pow2 1067 * (n * 100) := Nat.mul_le_mul_left _ h
    have h2 : n * (100 * pow2 1067) ≤ n * one := Nat.mul_le_mul_left _ spacing_cent
    have e : pow2 1067 * (n * 100) = n * (100 * pow2 1067) := by ring
    omega
  have hL : 1067 ≤ log2 (n * one / d) := le_log2_of_pow_le _ _ (by rw [← pow2_eq]; exact hX)
  have h1 : 1 ≤ n * one / d := Nat.le_trans (pow2_pos 1067) hX
  rcases Nat.lt_or_ge 1067 (log2 (n * one / d)) with hbig | hsmall
  · have hge := roundMag_ge_pow n d hd h1 (by omega)
    have hpow : pow2 1068 ≤ 2 ^ log2 (n * one / d) := pow2_le_pow 1068 _ hbig
    have := cent_upper_binade
    omega
  · have hLeq : log2 (n * one / d) = 1067 := by omega
    have hdef : roundMag n d =
        roundHalfEven (n * one) (d * pow2 (log2 (n * one / d) - 52)) *
          pow2 (log2 (n * one / d) - 52) := rfl
    rw [hdef, hLeq]
    change one ≤ roundHalfEven (n * one) (d * pow2 1015) * pow2 1015 * 100
    have hD : 0 < d * pow2 1015 := Nat.mul_pos hd (pow2_pos 1015)
    have hk : 5764607523034235 ≤ roundHalfEven (n * one) (d * pow2 1015) :=
      le_roundHalfEven _ _ _ hD (cent_scaled _ _ _ _ _ cent_mantissa hd h)
    have hm : 5764607523034235 * pow2 1015 * 100 ≤
        roundHalfEven (n * one) (d * pow2 1015) * pow2 1015 * 100 :=
      Nat.mul_le_mul_right _ (Nat.mul_le_mul_right _ hk)
    exact Nat.le_trans cent_float hm

/-- A float of at least `1` stays at least `1` when a product is rounded. -/
theorem roundMag_ge_one (x : Nat) (h : one ≤ x) : one ≤ roundMag x one := by
  have hq : x * one / one = x := Nat.mul_div_cancel _ one_pos
  have hL : 1074 ≤ log2 (x * one / one) := by
    apply le_log2_of_pow_le
    rw [hq, ← pow2_eq]
    exact h
  have h1 : 1 ≤ x * one / one := by rw [hq]; exact Nat.le_trans one_pos h
  have hge := roundMag_ge_pow x one one_pos h1 (by omega)
  have hpow : one ≤ 2 ^ log2 (x * one / one) := pow2_le_pow 1074 _ hL
  exact Nat.le_trans hpow hge

/-- The truncation of a packaged magnitude, when it is an `int64`. -/
theorem trunc64_ofMag (neg : Bool) (mag : Nat) (t : Int)
    (h : (F64.ofMag neg mag).trunc64 = some t) :
    t = (if neg then -((mag / one : Nat) : Int) else ((mag / one : Nat) : Int)) ∧ inInt64 t := by
  refine ⟨?_, trunc64_inInt64 _ t h⟩
  unfold F64.ofMag at h
  by_cases hinf : maxFinite < mag
  · rw [if_pos hinf] at h
    cases h
  · rw [if_neg hinf] at h
    unfold F64.trunc64 at h
    by_cases hin : inInt64 (if neg then -((mag / one : Nat) : Int) else ((mag / one : Nat) : Int))
    · simp only [if_pos hin] at h
      cases h
      rfl
    · simp only [if_neg hin] at h
      cases h

/-! ## The alphabet of `validMoney`

Only digits, signs, parentheses, `$`, points, commas and white space get past the
pattern, so the text `ParseFloat` receives never has an exponent part, a base marker,
an underscore or a letter. -/

namespace Regex

theorem mkCat_within (ok : Char → Bool) (r s : Regex) (hr : within ok r) (hs : within ok s) :
    within ok (mkCat r s) := by
  cases r <;> first | exact hs | exact trivial | exact ⟨hr, hs⟩

theorem mkAlt_within (ok : Char → Bool) (r s : Regex) (hr : within ok r) (hs : within ok s) :
    within ok (mkAlt r s) := by
  cases r <;> cases s <;> first | exact hs | exact hr | exact trivial | exact ⟨hr, hs⟩

theorem deriv_within (ok : Char → Bool) (c : Char) (r : Regex) (h : within ok r) :
    within ok (deriv c r) := by
  induction r with
  | never => exact trivial
  | eps => exact trivial
  | cls p =>
    unfold deriv
    split_ifs <;> exact trivial
  | cat r s ihr ihs =>
    unfold deriv
    split_ifs
    · exact mkAlt_within ok _ _ (mkCat_within ok _ _ (ihr h.1) h.2) (ihs h.2)
    · exact mkCat_within ok _ _ (ihr h.1) h.2
  | alt r s ihr ihs =>
    unfold deriv
    exact mkAlt_within ok _ _ (ihr h.1) (ihs h.2)
  | star r ih =>
    unfold deriv
    exact mkCat_within ok _ _ (ih h) h

/-- The derivative by a character outside the alphabet is the empty language. -/
theorem deriv_outside (ok : Char → Bool) (c : Char) (hc : ok c = false) (r : Regex)
    (h : within ok r) : deriv c r = never := by
  induction r with
  | never => rfl
  | eps => rfl
  | cls p =>
    unfold deriv
    split_ifs with hp
    · have := h c hp
      rw [hc] at this
      cases this
    · rfl
  | cat r s ihr ihs =>
    unfold deriv
    rw [ihr h.1, ihs h.2]
    split_ifs <;> rfl
  | alt r s ihr ihs =>
    unfold deriv
    rw [ihr h.1, ihs h.2]
    rfl
  | star r ih =>
    unfold deriv
    rw [ih h]
    rfl

theorem matchString_never (s : List Char) : matchString never s = false := by
  induction s with
  | nil => rfl
  | cons c cs ih => exact ih

/-- A text that matches is made of characters of the alphabet. -/
theorem matchString_within (ok : Char → Bool) (s : List Char) :
    ∀ r : Regex, within ok r → matchString r s = true → ∀ c ∈ s, ok c = true := by
  induction s with
  | nil => intro r _ _ c hc; cases hc
  | cons x xs ih =>
    intro r hr hm c hc
    have hm' : matchString (deriv x r) xs = true := hm
    rcases List.mem_cons.mp hc with h | h
    · subst h
      cases hok : ok c with
      | true => rfl
      | false =>
        rw [deriv_outside ok c hok r hr, matchString_never] at hm'
        cases hm'
    · exact ih (deriv x r) (deriv_within ok x r hr) hm' c h

theorem opt_within (ok : Char → Bool) (r : Regex) (h : within ok r) : within ok (opt r) :=
  ⟨h, trivial⟩

theorem times_within (ok : Char → Bool) (r : Regex) (h : within ok r) (n : Nat) :
    within ok (times r n) := by
  induction n with
  | zero => exact trivial
  | succ n ih => exact ⟨h, ih⟩

theorem upTo_within (ok : Char → Bool) (r : Regex) (h : within ok r) (n : Nat) :
    within ok (upTo r n) := by
  induction n with
  | zero => exact trivial
  | succ n ih => exact ⟨⟨h, ih⟩, trivial⟩

theorem between_within (ok : Char → Bool) (r : Regex) (h : within ok r) (lo hi : Nat) :
    within ok (between r lo hi) :=
  ⟨times_within ok r h lo, upTo_within ok r h (hi - lo)⟩

end Regex

theorem lit_within (x : Char) (hx : moneyChar x = true) : Regex.within moneyChar (Regex.lit x) := by
  intro c hc
  have : c = x := by simpa using hc
  rw [this]
  exact hx

theorem digit_within : Regex.within moneyChar Regex.digit := by
  intro c hc
  unfold moneyChar
  simp only [Bool.and_eq_true, decide_eq_true_eq] at hc
  simp [hc.1, hc.2]

theorem space_within : Regex.within moneyChar Regex.space := by
  intro c hc
  unfold moneyChar
  simp only [Bool.or_eq_true, beq_iff_eq] at hc
  rcases hc with (((h | h) | h) | h) | h <;> subst h <;> decide

theorem intPart_within : Regex.within moneyChar intPart :=
  ⟨Regex.between_within _ _ digit_within 1 3,
   ⟨lit_within ',' (by decide), Regex.times_within _ _ digit_within 3⟩, digit_within⟩

theorem validMoney_within : Regex.within moneyChar validMoney :=
  ⟨Regex.opt_within _ _ (lit_within '-' (by decide)),
   Regex.opt_within _ _ (lit_within '(' (by decide)),
   Regex.opt_within _ _ (lit_within '$' (by decide)),
   space_within,
   Regex.opt_within _ _ (lit_within '-' (by decide)),
   space_within,
   Regex.opt_within _ _ (lit_within '(' (by decide)),
   ⟨⟨Regex.opt_within _ _ intPart_within,
     Regex.opt_within _ _ ⟨lit_within '.' (by decide), Regex.between_within _ _ digit_within 1 4⟩⟩,
    ⟨intPart_within,
     Regex.opt_within _ _ ⟨lit_within '.' (by decide), Regex.between_within _ _ digit_within 0 4⟩⟩⟩,
   Regex.opt_within _ _ (lit_within ')' (by decide))⟩

/-- Whatever `SetString` hands to `ParseFloat` is made of digits, `-`, `(`, `)`, `$`,
`.`, `,` and white space: no exponent part, base marker, underscore or letter. -/
theorem numeral_chars (amount : GoString)
    (h : validMoney.matchString (removeChar ',' amount.toList) = true) :
    ∀ c ∈ numeral amount, moneyChar c = true := by
  intro c hc
  have hmem : c ∈ removeChar ',' amount.toList := by
    unfold numeral lastField at hc
    have hne := split_ne_nil '$' (removeChar ',' amount.toList)
    have hl : (split '$' (removeChar ',' amount.toList)).getLastD [] ∈
        split '$' (removeChar ',' amount.toList) := by
      cases hs : split '$' (removeChar ',' amount.toList) with
      | nil => exact absurd hs hne
      | cons g gs => exact List.getLast_mem (List.cons_ne_nil g gs)
    exact mem_of_mem_split '$' c _ _ hl hc
  exact Regex.matchString_within moneyChar _ validMoney validMoney_within h c hmem

/-! ## Decimal numerals -/

theorem digitChar_digit (k : Nat) (h : k < 10) :
    '0' ≤ Nat.digitChar k ∧ Nat.digitChar k ≤ '9' := by
  interval_cases k <;> decide

theorem digitChar_ne_zero (k : Nat) (h0 : 0 < k) (h : k < 10) : Nat.digitChar k ≠ '0' := by
  interval_cases k <;> decide

theorem toDigitsCore_digits (fuel : Nat) :
    ∀ (n : Nat) (ds : List Char), (∀ c ∈ ds, '0' ≤ c ∧ c ≤ '9') →
      ∀ c ∈ Nat.toDigitsCore 10 fuel n ds, '0' ≤ c ∧ c ≤ '9' := by
  induction fuel with
  | zero => intro n ds h c hc; exact h c hc
  | succ fuel ih =>
    intro n ds h c hc
    have hcons : ∀ x ∈ Nat.digitChar (n % 10) :: ds, '0' ≤ x ∧ x ≤ '9' := by
      intro x hx
      rcases List.mem_cons.mp hx with hx | hx
      · subst hx; exact digitChar_digit _ (Nat.mod_lt _ (by decide))
      · exact h x hx
    unfold Nat.toDigitsCore at hc
    simp only at hc
    split_ifs at hc
    · exact hcons c hc
    · exact ih _ _ hcons c hc

theorem toDigitsCore_ne_nil (fuel : Nat) :
    ∀ (n : Nat) (ds : List Char), ds ≠ [] → Nat.toDigitsCore 10 fuel n ds ≠ [] := by
  induction fuel with
  | zero => intro n ds h; exact h
  | succ fuel ih =>
    intro n ds _
    unfold Nat.toDigitsCore
    simp only
    split_ifs
    · exact List.cons_ne_nil _ _
    · exact ih _ _ (List.cons_ne_nil _ _)

theorem toDigitsCore_head (fuel : Nat) :
    ∀ (n : Nat) (ds : List Char), n < 10 ^ fuel → 0 < n →
      (Nat.toDigitsCore 10 fuel n ds).head? ≠ some '0' := by
  induction fuel with
  | zero => intro n ds h1 h2; simp at h1; omega
  | succ fuel ih =>
    intro n ds hlt hpos
    unfold Nat.toDigitsCore
    simp only
    split_ifs with h0
    · have hn : n % 10 = n := by omega
      have h10 : n < 10 := by omega
      rw [hn]
      simp only [List.head?_cons, ne_eq, Option.some.injEq]
      exact digitChar_ne_zero n hpos h10
    · apply ih
      · rw [pow_succ] at hlt
        exact Nat.div_lt_of_lt_mul (by rw [Nat.mul_comm]; exact hlt)
      · omega

/-- A decimal numeral is made of digits. -/
theorem decimal_digits (n : Nat) : ∀ c ∈ decimal n, '0' ≤ c ∧ c ≤ '9' :=
  toDigitsCore_digits (n + 1) n [] (by intro c hc; cases hc)

/-- A decimal numeral has at least one digit. -/
theorem decimal_ne_nil (n : Nat) : decimal n ≠ [] := by
  unfold decimal Nat.toDigits Nat.toDigitsCore
  simp only
  split_ifs
  · exact List.cons_ne_nil _ _
  · exact toDigitsCore_ne_nil _ _ _ (List.cons_ne_nil _ _)

/-- A decimal numeral starts with `0` only for the number 0. -/
theorem decimal_head (n : Nat) (h : 0 < n) : (decimal n).head? ≠ some '0' :=
  toDigitsCore_head (n + 1) n [] (Nat.lt_of_lt_of_le (Nat.lt_pow_self (by decide) n)
    (Nat.pow_le_pow_right (by decide) (Nat.le_succ n))) h

/-- The canonical string has exactly one `$`. -/
theorem canonical_one_dollar (c : Int) : (canonical c).toList.count '$' = 1 := by
  have hD : List.count '$' (decimal (c.natAbs / 100)) = 0 := by
    apply List.count_eq_zero.mpr
    intro hmem
    have := decimal_digits _ _ hmem
    exact absurd this (by decide)
  have h1 : Nat.digitChar (c.natAbs % 100 / 10) ≠ '$' := by
    intro he
    have := digitChar_digit (c.natAbs % 100 / 10) (by omega)
    rw [he] at this
    exact absurd this (by decide)
  have h2 : Nat.digitChar (c.natAbs % 100 % 10) ≠ '$' := by
    intro he
    have := digitChar_digit (c.natAbs % 100 % 10) (by omega)
    rw [he] at this
    exact absurd this (by decide)
  have e : (canonical c).toList = (if c < 0 then ['-'] else []) ++ ['$'] ++
      decimal (c.natAbs / 100) ++ ['.'] ++
      [Nat.digitChar (c.natAbs % 100 / 10), Nat.digitChar (c.natAbs % 100 % 10)] := rfl
  rw [e]
  simp only [List.count_append, hD]
  have hs : List.count '$' (if c < 0 then ['-'] else []) = 0 := by
    split_ifs <;> decide
  rw [hs]
  rw [List.count_cons, List.count_cons, List.count_cons, List.count_cons]
  simp [h1.symm, h2.symm, h1, h2]

/-! ## Texts that `ParseFloat` rejects -/

/-- The digit loop only gets through digits and points. -/
theorem readDigits_chars (l : List Char) :
    ∀ (st st' : DigitScan), readDigits l st = some st' →
      ∀ c ∈ l, c = '.' ∨ ('0' ≤ c ∧ c ≤ '9') := by
  induction l with
  | nil => intro st st' _ c hc; cases hc
  | cons x xs ih =>
    intro st st' h c hc
    unfold readDigits at h
    by_cases hdot : x = '.'
    · rw [if_pos hdot] at h
      by_cases hs : st.sawdot = true
      · rw [if_pos hs] at h; cases h
      · rw [if_neg hs] at h
        rcases List.mem_cons.mp hc with hx | hx
        · exact Or.inl (hx.trans hdot)
        · exact ih _ _ h c hx
    · rw [if_neg hdot] at h
      by_cases hd : '0' ≤ x ∧ x ≤ '9'
      · rw [if_pos hd] at h
        rcases List.mem_cons.mp hc with hx | hx
        · exact Or.inr (hx ▸ hd)
        · exact ih _ _ h c hx
      · rw [if_neg hd] at h; cases h

/-- The digit loop sets `sawdigits` only on a digit. -/
theorem readDigits_sawdigits (l : List Char) :
    ∀ (st st' : DigitScan), readDigits l st = some st' → st'.sawdigits = true →
      st.sawdigits = true ∨ ∃ c ∈ l, '0' ≤ c ∧ c ≤ '9' := by
  induction l with
  | nil =>
    intro st st' h hs
    unfold readDigits at h
    cases h
    exact Or.inl hs
  | cons x xs ih =>
    intro st st' h hs
    unfold readDigits at h
    by_cases hdot : x = '.'
    · rw [if_pos hdot] at h
      by_cases hsd : st.sawdot = true
      · rw [if_pos hsd] at h; cases h
      · rw [if_neg hsd] at h
        rcases ih _ _ h hs with h1 | ⟨c, hc, hd⟩
        · exact Or.inl h1
        · exact Or.inr ⟨c, List.mem_cons_of_mem _ hc, hd⟩
    · rw [if_neg hdot] at h
      by_cases hd : '0' ≤ x ∧ x ≤ '9'
      · exact Or.inr ⟨x, List.mem_cons_self _ _, hd⟩
      · rw [if_neg hd] at h; cases h

theorem mem_of_mem_readSign (s : List Char) (c : Char) (h : c ∈ (readSign s).2) : c ∈ s := by
  unfold readSign at h
  split at h
  · exact List.mem_cons_of_mem _ h
  · exact List.mem_cons_of_mem _ h
  · exact h

theorem mem_readSign (s : List Char) (c : Char) (h : c ∈ s) (h1 : c ≠ '-') (h2 : c ≠ '+') :
    c ∈ (readSign s).2 := by
  unfold readSign
  split
  · rcases List.mem_cons.mp h with hx | hx
    · exact absurd hx h1
    · exact hx
  · rcases List.mem_cons.mp h with hx | hx
    · exact absurd hx h2
    · exact hx
  · exact h

/-- A text with a character that is no digit, point or sign does not read as a
decimal. -/
theorem readDecimal_none_of_char (s : List Char) (c : Char) (hc : c ∈ s) (h1 : c ≠ '-')
    (h2 : c ≠ '+') (h3 : c ≠ '.') (h4 : ¬ ('0' ≤ c ∧ c ≤ '9')) : readDecimal s = none := by
  unfold readDecimal
  cases h : readDigits (readSign s).2 ⟨0, 0, false, false⟩ with
  | none => rfl
  | some st =>
    rcases readDigits_chars _ _ _ h c (mem_readSign s c hc h1 h2) with hx | hx
    · exact absurd hx h3
    · exact absurd hx h4

/-- A text without a digit does not read as a decimal. -/
theorem readDecimal_none_of_no_digit (s : List Char) (h : ∀ c ∈ s, ¬ ('0' ≤ c ∧ c ≤ '9')) :
    readDecimal s = none := by
  unfold readDecimal
  cases hr : readDigits (readSign s).2 ⟨0, 0, false, false⟩ with
  | none => rfl
  | some st =>
    simp only
    by_cases hs : st.sawdigits = true
    · rcases readDigits_sawdigits _ _ _ hr hs with h1 | ⟨c, hc, hd⟩
      · cases h1
      · exact absurd hd (h c (mem_of_mem_readSign s c hc))
    · rw [if_neg hs]

/-- When the numeral does not read as a decimal, `SetString` returns an error and
leaves the receiver alone. -/
theorem SetString_fails (cvt : F64 → Int) (m : Money) (amount : GoString)
    (h : readDecimal (numeral amount) = none) :
    (m.SetString cvt amount).2 ≠ none ∧ (m.SetString cvt amount).1 = m := by
  have hpf : ParseFloat (numeral amount) = .error .malformed := by
    unfold ParseFloat
    rw [h]
  rw [SetString_eq]
  by_cases hre : validMoney.matchString (removeChar ',' amount.toList) = true
  · rw [if_pos hre, hpf]
    exact ⟨by simp, rfl⟩
  · rw [if_neg hre]
    exact ⟨by simp, rfl⟩

/-- White space in the text handed to `ParseFloat` makes `SetString` fail. -/
theorem SetString_fails_of_space (cvt : F64 → Int) (m : Money) (amount : GoString) (c : Char)
    (hc : c ∈ numeral amount) (hs : isSpace c = true) :
    (m.SetString cvt amount).2 ≠ none ∧ (m.SetString cvt amount).1 = m := by
  apply SetString_fails
  unfold isSpace at hs
  simp only [Bool.or_eq_true, beq_iff_eq] at hs
  apply readDecimal_none_of_char _ c hc <;>
    (rcases hs with (((h | h) | h) | h) | h <;> subst h <;> decide)

theorem split_snoc (sep c : Char) (hc : c ≠ sep) (l : List Char) :
    ∃ init last, split sep l = init ++ [last] ∧
      split sep (l ++ [c]) = init ++ [last ++ [c]] := by
  induction l with
  | nil =>
    refine ⟨[], [], rfl, ?_⟩
    show split sep [c] = _
    unfold split
    rw [if_neg hc]
    rfl
  | cons x xs ih =>
    obtain ⟨init, last, h1, h2⟩ := ih
    show ∃ init last, split sep (x :: xs) = init ++ [last] ∧
      split sep (x :: (xs ++ [c])) = init ++ [last ++ [c]]
    unfold split
    by_cases hx : x = sep
    · rw [if_pos hx, if_pos hx, h1, h2]
      exact ⟨[] :: init, last, rfl, rfl⟩
    · rw [if_neg hx, if_neg hx, h1, h2]
      cases init with
      | nil => exact ⟨[], x :: last, rfl, rfl⟩
      | cons i is => exact ⟨(x :: i) :: is, last, rfl, rfl⟩

theorem lastField_snoc (init : List (List Char)) (last : List Char) :
    lastField (init ++ [last]) = last := by
  unfold lastField
  induction init with
  | nil => rfl
  | cons i is ih =>
    cases is with
    | nil => rfl
    | cons j js => exact ih

theorem lastField_split_snoc (sep c : Char) (hc : c ≠ sep) (l : List Char) :
    lastField (split sep (l ++ [c])) = lastField (split sep l) ++ [c] := by
  obtain ⟨init, last, h1, h2⟩ := split_snoc sep c hc l
  rw [h1, h2, lastField_snoc, lastField_snoc]

/-- The numeral of a text that ends in `)` ends in `)`. -/
theorem numeral_snoc_paren (t : GoString) : ')' ∈ numeral (t ++ ")") := by
  have e : (t ++ ")").toList = t.toList ++ [')'] := rfl
  unfold numeral
  rw [e]
  have e2 : removeChar ',' (t.toList ++ [')']) = removeChar ',' t.toList ++ [')'] := by
    unfold removeChar
    rw [List.filter_append]
    rfl
  rw [e2, lastField_split_snoc '$' ')' (by decide)]
  simp

/-- A call of `SetString` on which the pattern matches and `ParseFloat` fails. -/
theorem SetString_parse_error (cvt : F64 → Int) (m : Money) (amount : GoString)
    (kind : NumError)
    (hre : validMoney.matchString (removeChar ',' amount.toList) = true)
    (hpf : ParseFloat (numeral amount) = .error kind) :
    m.SetString cvt amount = (m, some (.parseFloat (String.mk (numeral amount)) kind)) := by
  rw [SetString_eq, if_pos hre, hpf]

/-- A call of `SetString` on which the pattern does not match. -/
theorem SetString_not_money (cvt : F64 → Int) (m : Money) (amount : GoString)
    (hre : validMoney.matchString (removeChar ',' amount.toList) = false) :
    m.SetString cvt amount = (m, some (.notMoney (String.mk (removeChar ',' amount.toList)))) := by
  rw [SetString_eq, if_neg (by rw [hre]; decide)]

/-! ## Negative cents never render as zero -/

/-- An integer of at least 1 converts to a float of at least `1.0`. -/
theorem roundMag_int_ge_one (a : Nat) (h : 1 ≤ a) : one ≤ roundMag a 1 := by
  have hq : a * one / 1 = a * one := Nat.div_one _
  have hge : one ≤ a * one := Nat.le_mul_of_pos_left one h
  have hL : 1074 ≤ log2 (a * one / 1) := by
    apply le_log2_of_pow_le
    rw [hq, ← pow2_eq]
    exact hge
  have h1 : 1 ≤ a * one / 1 := by rw [hq]; exact Nat.le_trans one_pos hge
  have hpow := roundMag_ge_pow a 1 (by decide) h1 (by omega)
  exact Nat.le_trans (pow2_le_pow 1074 _ hL) hpow

/-- Two decimals of a quotient of at least half a cent are not `0.00`. -/
theorem format2_ne_zero (mag : Nat) (h : one ≤ mag * 100) :
    (F64.finite false mag).format2 ≠ ['0', '.', '0', '0'] := by
  have hq : 1 ≤ roundHalfEven (mag * 100) one :=
    le_roundHalfEven _ _ 1 one_pos (by have := one_pos; omega)
  unfold F64.format2
  simp only [Bool.false_eq_true, if_false, List.nil_append]
  generalize roundHalfEven (mag * 100) one = q at hq
  intro heq
  rcases Nat.lt_or_ge q 100 with hlt | hge
  · have h0 : q / 100 = 0 := Nat.div_eq_of_lt hlt
    have hd : decimal 0 = ['0'] := rfl
    rw [h0, hd] at heq
    have hmod : q % 100 = q := Nat.mod_eq_of_lt hlt
    rw [hmod] at heq
    simp only [List.cons_append, List.nil_append, List.cons.injEq, and_true, true_and] at heq
    rcases Nat.eq_zero_or_pos (q / 10) with hz | hp
    · have : 0 < q % 10 := by omega
      exact digitChar_ne_zero (q % 10) this (Nat.mod_lt _ (by decide)) heq.2
    · exact digitChar_ne_zero (q / 10) hp (by omega) heq.1
  · have hpos : 0 < q / 100 := Nat.div_pos hge (by decide)
    have hhead := decimal_head (q / 100) hpos
    have hne := decimal_ne_nil (q / 100)
    cases hdec : decimal (q / 100) with
    | nil => exact hne hdec
    | cons x xs =>
      rw [hdec] at heq hhead
      simp only [List.cons_append, List.cons.injEq] at heq
      simp only [List.head?_cons, ne_eq, Option.some.injEq] at hhead
      exact hhead heq.1

/-- The rendering of negative cents is never `-$0.00`. -/
theorem stringFromInt_neg_ne (c : Int) (hc : c < 0) : stringFromInt c ≠ "-$0.00" := by
  have ha : 1 ≤ c.natAbs := by omega
  have hM := roundMag_int_ge_one c.natAbs ha
  have hR : one ≤ roundMag (roundMag c.natAbs 1) (100 * one) * 100 :=
    cent_lower _ _ (Nat.mul_pos (by decide) one_pos)
      (by rw [Nat.mul_comm 100 one]; exact Nat.mul_le_mul_right 100 hM)
  have hRpos : 0 < roundMag (roundMag c.natAbs 1) (100 * one) := by
    have := one_pos
    omega
  intro heq
  have hdata : (stringFromInt c).toList = ['-', '$', '0', '.', '0', '0'] := by rw [heq]; rfl
  unfold stringFromInt at hdata
  simp only [hc, if_true] at hdata
  unfold F64.ofInt F64.ofMag at hdata
  simp only [hc, decide_True] at hdata
  by_cases h1 : maxFinite < roundMag c.natAbs 1
  · rw [if_pos h1] at hdata
    revert hdata
    decide
  · rw [if_neg h1] at hdata
    unfold F64.divNat F64.ofMag at hdata
    simp only at hdata
    by_cases h2 : maxFinite < roundMag (roundMag c.natAbs 1) (100 * one)
    · rw [if_pos h2] at hdata
      revert hdata
      decide
    · rw [if_neg h2] at hdata
      simp only [F64.ltZero, hRpos, decide_True, Bool.and_self, if_true, F64.negate,
        Bool.not_true] at hdata
      have hfmt := format2_ne_zero _ hR
      apply hfmt
      simpa using hdata

/-- The rendering starts with `-` exactly for negative cents. -/
theorem stringFromInt_head (c : Int) :
    ((stringFromInt c).toList.head? == some '-') = decide (c < 0) := by
  unfold stringFromInt
  by_cases hc : c < 0
  · simp [hc]
  · simp [hc]

/-! ## The shape of the rendering on every `int64` -/

/-- A rounded value is at most one and a half times the exact one, plus half a unit. -/
theorem roundMag_le (n d : Nat) (hd : 0 < d) :
    2 * (roundMag n d * d) ≤ 3 * (n * one) + d := by
  have h1 := (roundMag_err n d hd).1
  have hs : d * 2 ^ (log2 (n * one / d) - 52) ≤ n * one + d := by
    rcases Nat.eq_zero_or_pos (n * one / d) with h0 | hpos
    · rw [h0, log2_zero]
      simp
    · have hspec := (log2_spec (n * one / d) hpos).1
      have hle : 2 ^ (log2 (n * one / d) - 52) ≤ 2 ^ log2 (n * one / d) :=
        Nat.pow_le_pow_right (by decide) (Nat.sub_le _ _)
      have h2 : 2 ^ (log2 (n * one / d) - 52) ≤ n * one / d := Nat.le_trans hle hspec
      have h3 : d * 2 ^ (log2 (n * one / d) - 52) ≤ d * (n * one / d) :=
        Nat.mul_le_mul_left d h2
      have h4 : d * (n * one / d) ≤ n * one := Nat.mul_div_le _ _
      omega
  omega

theorem int64_finite_bound : 3 * (pow2 63 * one) + 1 ≤ 2 * maxFinite := by decide

theorem maxFinite_pos : 1 ≤ maxFinite := by decide

/-- The float of an `int64` is finite. -/
theorem ofInt_finite (c : Int) (h : inInt64 c) : roundMag c.natAbs 1 ≤ maxFinite := by
  have ha : c.natAbs ≤ pow2 63 := by
    unfold inInt64 at h
    rw [pow2_eq]
    omega
  have hb := roundMag_le c.natAbs 1 (by decide)
  have hc : c.natAbs * one ≤ pow2 63 * one := Nat.mul_le_mul_right one ha
  have := int64_finite_bound
  omega

/-- The quotient by `100` of a finite float is finite. -/
theorem div100_finite (M : Nat) (h : M ≤ maxFinite) : roundMag M (100 * one) ≤ maxFinite := by
  have hb := roundMag_le M (100 * one) (Nat.mul_pos (by decide) one_pos)
  have e1 : 2 * (roundMag M (100 * one) * (100 * one)) = (200 * roundMag M (100 * one)) * one := by
    ring
  have e2 : 3 * (M * one) + 100 * one = (3 * M + 100) * one := by ring
  rw [e1, e2] at hb
  have hb' := Nat.le_of_mul_le_mul_right hb one_pos
  have := maxFinite_pos
  omega

/-- The float quotient of a non-zero amount, times `100`, is at least `1`. -/
theorem quotient_ge (a : Nat) (ha : 1 ≤ a) :
    one ≤ roundMag (roundMag a 1) (100 * one) * 100 :=
  cent_lower _ _ (Nat.mul_pos (by decide) one_pos)
    (by rw [Nat.mul_comm 100 one]; exact Nat.mul_le_mul_right 100 (roundMag_int_ge_one a ha))

/-- On every `int64` the rendering is the canonical string of `renderedCents`. -/
theorem stringFromInt_rendered (c : Int) (h : inInt64 c) :
    stringFromInt c = canonical (renderedCents c) := by
  have hM := ofInt_finite c h
  have hR := div100_finite _ hM
  unfold stringFromInt canonical renderedCents
  simp only
  unfold F64.ofInt F64.ofMag
  rw [if_neg (Nat.not_lt.mpr hM)]
  unfold F64.divNat F64.ofMag
  simp only
  rw [if_neg (Nat.not_lt.mpr hR)]
  have hf : (F64.finite false (roundMag (roundMag c.natAbs 1) (100 * one))).format2 =
      decimal (roundHalfEven (roundMag (roundMag c.natAbs 1) (100 * one) * 100) one / 100) ++
        ['.', Nat.digitChar
            (roundHalfEven (roundMag (roundMag c.natAbs 1) (100 * one) * 100) one % 100 / 10),
          Nat.digitChar
            (roundHalfEven (roundMag (roundMag c.natAbs 1) (100 * one) * 100) one % 10)] := rfl
  by_cases hc : c < 0
  · have hge := quotient_ge c.natAbs (by omega)
    have hpos : 0 < roundMag (roundMag c.natAbs 1) (100 * one) := by
      have := one_pos
      omega
    have hq : 1 ≤ roundHalfEven (roundMag (roundMag c.natAbs 1) (100 * one) * 100) one :=
      le_roundHalfEven _ _ 1 one_pos (by have := one_pos; omega)
    simp only [hc, decide_True, F64.ltZero, hpos, Bool.and_self, if_true, F64.negate,
      Bool.not_true]
    rw [hf]
    generalize roundHalfEven (roundMag (roundMag c.natAbs 1) (100 * one) * 100) one = q at hq
    have hneg : (-(q : Int)) < 0 := by omega
    have habs : (-(q : Int)).natAbs = q := by omega
    have hmod : q % 10 = q % 100 % 10 := by omega
    simp only [hneg, if_true, habs, hmod, List.append_assoc, List.nil_append]
    rfl
  · simp only [hc, decide_False, F64.ltZero, Bool.false_and, Bool.false_eq_true, if_false]
    rw [hf]
    generalize roundHalfEven (roundMag (roundMag c.natAbs 1) (100 * one) * 100) one = q
    have hneg : ¬ ((q : Int) < 0) := by omega
    have habs : ((q : Int)).natAbs = q := by omega
    have hmod : q % 10 = q % 100 % 10 := by omega
    simp only [hneg, if_false, habs, hmod, List.append_assoc, List.nil_append]
    rfl

/-- The cents printed have the sign of the amount. -/
theorem renderedCents_neg (c : Int) : renderedCents c < 0 ↔ c < 0 := by
  unfold renderedCents
  simp only
  by_cases hc : c < 0
  · have hge := quotient_ge c.natAbs (by omega)
    have hq : 1 ≤ roundHalfEven (roundMag (roundMag c.natAbs 1) (100 * one) * 100) one :=
      le_roundHalfEven _ _ 1 one_pos (by have := one_pos; omega)
    rw [if_pos hc]
    constructor
    · intro _; exact hc
    · intro _; omega
  · rw [if_neg hc]
    constructor
    · intro hq; omega
    · intro h; exact absurd h hc

set_option maxRecDepth 100000 in
/-- Up to `100 * 2^46` in magnitude the cents printed are the amount. -/
theorem renderedCents_exact (c : Int) (h : c.natAbs ≤ 7036874417766400) :
    renderedCents c = c := by
  rcases Nat.lt_or_eq_of_le h with hlt | heq
  · have ha : c.natAbs < 100 * pow2 46 := by rw [bound_eq]; exact hlt
    have h53 : c.natAbs < pow2 53 := Nat.lt_trans ha bound_lt_pow2_53
    unfold renderedCents
    simp only
    rw [roundMag_int _ h53, format2_cents _ ha]
    split_ifs <;> omega
  · have hc : c = 7036874417766400 ∨ c = -7036874417766400 := by omega
    rcases hc with hc | hc <;> subst hc <;> decide

/-! ## The matcher is sound for the language of the pattern -/

namespace Regex

theorem nullable_sound (r : Regex) (h : nullable r = true) : Lang r [] := by
  induction r with
  | never => cases h
  | eps => rfl
  | cls p => cases h
  | cat r s ihr ihs =>
    simp only [nullable, Bool.and_eq_true] at h
    exact ⟨[], [], rfl, ihr h.1, ihs h.2⟩
  | alt r s ihr ihs =>
    simp only [nullable, Bool.or_eq_true] at h
    rcases h with h | h
    · exact Or.inl (ihr h)
    · exact Or.inr (ihs h)
  | star r _ => exact ⟨[], rfl, fun u hu => by cases hu⟩

theorem mkCat_sound (r s : Regex) (w : List Char) (h : Lang (mkCat r s) w) :
    Lang (cat r s) w := by
  cases r with
  | never => cases h
  | eps => exact ⟨[], w, rfl, rfl, h⟩
  | cls p => exact h
  | cat a b => exact h
  | alt a b => exact h
  | star a => exact h

theorem mkAlt_sound (r s : Regex) (w : List Char) (h : Lang (mkAlt r s) w) :
    Lang (alt r s) w := by
  cases r with
  | never => cases s <;> exact Or.inr h
  | eps => cases s <;> first | exact Or.inl h | exact h
  | cls p => cases s <;> first | exact Or.inl h | exact h
  | cat a b => cases s <;> first | exact Or.inl h | exact h
  | alt a b => cases s <;> first | exact Or.inl h | exact h
  | star a => cases s <;> first | exact Or.inl h | exact h

theorem deriv_sound (c : Char) (r : Regex) :
    ∀ w : List Char, Lang (deriv c r) w → Lang r (c :: w) := by
  induction r with
  | never => intro w h; cases h
  | eps => intro w h; cases h
  | cls p =>
    intro w h
    unfold deriv at h
    by_cases hp : p c = true
    · rw [if_pos hp] at h
      have hw : w = [] := h
      subst hw
      exact ⟨c, rfl, hp⟩
    · rw [if_neg hp] at h
      cases h
  | cat r s ihr ihs =>
    intro w h
    unfold deriv at h
    by_cases hn : nullable r = true
    · rw [if_pos hn] at h
      rcases mkAlt_sound _ _ _ h with h1 | h2
      · obtain ⟨u, v, hw, hu, hv⟩ := mkCat_sound _ _ _ h1
        exact ⟨c :: u, v, by rw [hw]; rfl, ihr u hu, hv⟩
      · exact ⟨[], c :: w, rfl, nullable_sound r hn, ihs w h2⟩
    · rw [if_neg hn] at h
      obtain ⟨u, v, hw, hu, hv⟩ := mkCat_sound _ _ _ h
      exact ⟨c :: u, v, by rw [hw]; rfl, ihr u hu, hv⟩
  | alt r s ihr ihs =>
    intro w h
    unfold deriv at h
    rcases mkAlt_sound _ _ _ h with h1 | h2
    · exact Or.inl (ihr w h1)
    · exact Or.inr (ihs w h2)
  | star r ih =>
    intro w h
    unfold deriv at h
    obtain ⟨u, v, hw, hu, ws, hv, hall⟩ := mkCat_sound _ _ _ h
    refine ⟨(c :: u) :: ws, ?_, ?_⟩
    · rw [hw, hv]; rfl
    · intro x hx
      rcases List.mem_cons.mp hx with hx | hx
      · rw [hx]; exact ih u hu
      · exact hall x hx

/-- A text the matcher accepts is in the language of the pattern. -/
theorem matchString_sound (w : List Char) :
    ∀ r : Regex, matchString r w = true → Lang r w := by
  induction w with
  | nil => intro r h; exact nullable_sound r h
  | cons c cs ih => intro r h; exact deriv_sound c r cs (ih (deriv c r) h)

/-- The words of a pattern are made of characters of its classes. -/
theorem Lang_within (ok : Char → Bool) (r : Regex) :
    within ok r → ∀ w : List Char, Lang r w → ∀ c ∈ w, ok c = true := by
  induction r with
  | never => intro _ w h; cases h
  | eps =>
    intro _ w h c hc
    have hw : w = [] := h
    subst hw
    cases hc
  | cls p =>
    intro hr w h c hc
    obtain ⟨x, hw, hp⟩ := h
    subst hw
    rcases List.mem_cons.mp hc with hx | hx
    · rw [hx]; exact hr x hp
    · cases hx
  | cat r s ihr ihs =>
    intro hr w h c hc
    obtain ⟨u, v, hw, hu, hv⟩ := h
    subst hw
    rcases List.mem_append.mp hc with hx | hx
    · exact ihr hr.1 u hu c hx
    · exact ihs hr.2 v hv c hx
  | alt r s ihr ihs =>
    intro hr w h c hc
    rcases h with h | h
    · exact ihr hr.1 w h c hc
    · exact ihs hr.2 w h c hc
  | star r ih =>
    intro hr w h c hc
    obtain ⟨ws, hw, hall⟩ := h
    subst hw
    obtain ⟨u, hu, hcu⟩ := List.mem_flatten.mp hc
    exact ih hr u (hall u hu) c hcu

theorem Lang_times_length (p : Char → Bool) (n : Nat) :
    ∀ w : List Char, Lang (times (cls p) n) w → w.length = n := by
  induction n with
  | zero =>
    intro w h
    have hw : w = [] := h
    rw [hw]; rfl
  | succ n ih =>
    intro w h
    obtain ⟨u, v, hw, ⟨c, hu, _⟩, hv⟩ := h
    rw [hw, hu, List.length_append, ih v hv]
    simp
    omega

theorem Lang_upTo_length (p : Char → Bool) (n : Nat) :
    ∀ w : List Char, Lang (upTo (cls p) n) w → w.length ≤ n := by
  induction n with
  | zero =>
    intro w h
    have hw : w = [] := h
    rw [hw]; exact Nat.le_refl 0
  | succ n ih =>
    intro w h
    rcases h with ⟨u, v, hw, ⟨c, hu, _⟩, hv⟩ | h
    · have := ih v hv
      rw [hw, hu, List.length_append]
      simp
      omega
    · have hw : w = [] := h
      rw [hw]; exact Nat.zero_le _

theorem Lang_between_length (p : Char → Bool) (lo hi : Nat) (h : lo ≤ hi) (w : List Char)
    (hw : Lang (between (cls p) lo hi) w) : w.length ≤ hi := by
  obtain ⟨u, v, he, hu, hv⟩ := hw
  have h1 := Lang_times_length p lo u hu
  have h2 := Lang_upTo_length p (hi - lo) v hv
  rw [he, List.length_append]
  omega

end Regex

/-! ## The pattern admits at most four fraction digits -/

theorem append_cons_split (a : Char) (u : List Char) (ha : a ∉ u) :
    ∀ (t x v : List Char), u ++ t = x ++ a :: v → ∃ y, x = u ++ y ∧ t = y ++ a :: v := by
  induction u with
  | nil => intro t x v h; exact ⟨x, rfl, h⟩
  | cons b bs ih =>
    intro t x v h
    have hb : a ≠ b := fun e => ha (e ▸ List.mem_cons_self _ _)
    have hbs : a ∉ bs := fun e => ha (List.mem_cons_of_mem _ e)
    cases x with
    | nil =>
      simp only [List.cons_append, List.nil_append, List.cons.injEq] at h
      exact absurd h.1.symm hb
    | cons c cs =>
      simp only [List.cons_append, List.cons.injEq] at h
      obtain ⟨y, hy1, hy2⟩ := ih hbs t cs v h.2
      exact ⟨y, by rw [hy1, h.1]; rfl, hy2⟩

theorem cons_unique (a : Char) (l1 : List Char) :
    ∀ (r1 l2 r2 : List Char), a ∉ l1 → a ∉ r1 → l1 ++ a :: r1 = l2 ++ a :: r2 →
      l1 = l2 ∧ r1 = r2 := by
  induction l1 with
  | nil =>
    intro r1 l2 r2 _ hr h
    cases l2 with
    | nil =>
      simp only [List.nil_append, List.cons.injEq, true_and] at h
      exact ⟨rfl, h⟩
    | cons c cs =>
      simp only [List.nil_append, List.cons_append, List.cons.injEq] at h
      exfalso
      apply hr
      rw [h.2]
      simp
  | cons b bs ih =>
    intro r1 l2 r2 hl hr h
    have hb : a ≠ b := fun e => hl (e ▸ List.mem_cons_self _ _)
    have hbs : a ∉ bs := fun e => hl (List.mem_cons_of_mem _ e)
    cases l2 with
    | nil =>
      simp only [List.cons_append, List.nil_append, List.cons.injEq] at h
      exact absurd h.1.symm hb
    | cons c cs =>
      simp only [List.cons_append, List.cons.injEq] at h
      obtain ⟨h1, h2⟩ := ih r1 cs r2 hbs hr h.2
      exact ⟨by rw [h.1, h1], h2⟩

theorem not_mem_of_noDot (w : List Char) (h : ∀ c ∈ w, noDot c = true) : '.' ∉ w := by
  intro hm
  have := h '.' hm
  revert this
  decide

/-- A part without points in front does not change the fraction. -/
theorem frac_cat (r s : Regex) (hr : Regex.within noDot r)
    (hs : ∀ t, Regex.Lang s t → fracAtMost4 t) :
    ∀ w, Regex.Lang (Regex.cat r s) w → fracAtMost4 w := by
  intro w hw x v hx hv
  obtain ⟨u, t, he, hu, ht⟩ := hw
  have hdot : '.' ∉ u := not_mem_of_noDot u (Regex.Lang_within noDot r hr u hu)
  rw [he] at hx
  obtain ⟨y, _, hy⟩ := append_cons_split '.' u hdot t x v hx
  exact hs t ht y v hy hv

theorem lit_noDot (a : Char) (ha : noDot a = true) : Regex.within noDot (Regex.lit a) := by
  intro c hc
  have : c = a := by simpa using hc
  rw [this]
  exact ha

theorem digit_noDot : Regex.within noDot Regex.digit := by
  intro c hc
  simp only [Bool.and_eq_true, decide_eq_true_eq] at hc
  unfold noDot
  simp only [bne_iff_ne, ne_eq]
  intro he
  rw [he] at hc
  exact absurd hc.1 (by decide)

theorem space_noDot : Regex.within noDot Regex.space := by
  intro c hc
  simp only [Bool.or_eq_true, beq_iff_eq] at hc
  rcases hc with (((h | h) | h) | h) | h <;> subst h <;> decide

theorem intPart_noDot : Regex.within noDot intPart :=
  ⟨Regex.between_within _ _ digit_noDot 1 3,
   ⟨lit_noDot ',' (by decide), Regex.times_within _ _ digit_noDot 3⟩, digit_noDot⟩

theorem digit_isDigit : Regex.within isDigit Regex.digit := fun _ h => h

/-- The fraction part of the pattern: nothing, or a point and at most four digits. -/
theorem Lang_fraction (lo : Nat) (hlo : lo ≤ 4) (w : List Char)
    (h : Regex.Lang (Regex.opt (Regex.cat (Regex.lit '.') (Regex.between Regex.digit lo 4))) w) :
    w = [] ∨ ∃ F, w = '.' :: F ∧ (∀ c ∈ F, isDigit c = true) ∧ F.length ≤ 4 := by
  rcases h with ⟨u, F, hw, ⟨c, hu, hc⟩, hF⟩ | h
  · right
    have hcd : c = '.' := by simpa using hc
    refine ⟨F, by rw [hw, hu, hcd]; rfl, ?_, ?_⟩
    · exact Regex.Lang_within isDigit _ (Regex.between_within _ _ digit_isDigit lo 4) F hF
    · exact Regex.Lang_between_length _ lo 4 hlo F hF
  · exact Or.inl h

/-- The number part of the pattern: no point at all, or a part without point, a point
and at most four digits. -/
theorem Lang_number (w : List Char)
    (h : Regex.Lang
      (Regex.alt
        (Regex.cat (Regex.opt intPart)
          (Regex.opt (Regex.cat (Regex.lit '.') (Regex.between Regex.digit 1 4))))
        (Regex.cat intPart
          (Regex.opt (Regex.cat (Regex.lit '.') (Regex.between Regex.digit 0 4))))) w) :
    '.' ∉ w ∨ ∃ I F, w = I ++ '.' :: F ∧ '.' ∉ I ∧ (∀ c ∈ F, isDigit c = true) ∧
      F.length ≤ 4 := by
  have key : ∀ (I Fp : List Char), w = I ++ Fp → '.' ∉ I →
      (Fp = [] ∨ ∃ F, Fp = '.' :: F ∧ (∀ c ∈ F, isDigit c = true) ∧ F.length ≤ 4) →
      '.' ∉ w ∨ ∃ I F, w = I ++ '.' :: F ∧ '.' ∉ I ∧ (∀ c ∈ F, isDigit c = true) ∧
        F.length ≤ 4 := by
    intro I Fp hw hI hFp
    rcases hFp with h0 | ⟨F, hF, hd, hl⟩
    · left
      rw [hw, h0, List.append_nil]
      exact hI
    · right
      exact ⟨I, F, by rw [hw, hF], hI, hd, hl⟩
  rcases h with ⟨I, Fp, hw, hI, hFp⟩ | ⟨I, Fp, hw, hI, hFp⟩
  · have hIdot : '.' ∉ I := by
      rcases hI with hI | hI
      · exact not_mem_of_noDot I (Regex.Lang_within noDot _ intPart_noDot I hI)
      · have hnil : I = [] := hI
        rw [hnil]
        simp
    exact key I Fp hw hIdot (Lang_fraction 1 (by decide) Fp hFp)
  · have hIdot : '.' ∉ I :=
      not_mem_of_noDot I (Regex.Lang_within noDot _ intPart_noDot I hI)
    exact key I Fp hw hIdot (Lang_fraction 0 (by decide) Fp hFp)

/-- The number part followed by the optional closing parenthesis. -/
theorem frac_number (w : List Char)
    (h : Regex.Lang
      (Regex.cat
        (Regex.alt
          (Regex.cat (Regex.opt intPart)
            (Regex.opt (Regex.cat (Regex.lit '.') (Regex.between Regex.digit 1 4))))
          (Regex.cat intPart
            (Regex.opt (Regex.cat (Regex.lit '.') (Regex.between Regex.digit 0 4)))))
        (Regex.opt (Regex.lit ')'))) w) : fracAtMost4 w := by
  intro x v hx hv
  obtain ⟨num, post, hw, hnum, hpost⟩ := h
  have hpost' : post = [] ∨ post = [')'] := by
    rcases hpost with ⟨c, hc, hp⟩ | hp
    · right
      have : c = ')' := by simpa using hp
      rw [hc, this]
    · exact Or.inl hp
  have hpdot : '.' ∉ post := by
    rcases hpost' with hp | hp <;> rw [hp] <;> decide
  rcases Lang_number num hnum with hno | ⟨I, F, hn, hI, hd, hl⟩
  · exfalso
    have hmem : '.' ∈ w := by rw [hx]; simp
    rw [hw] at hmem
    rcases List.mem_append.mp hmem with hm | hm
    · exact hno hm
    · exact hpdot hm
  · have hFdot : '.' ∉ F ++ post := by
      intro hm
      rcases List.mem_append.mp hm with hm | hm
      · have := hd '.' hm
        revert this
        decide
      · exact hpdot hm
    have heq : I ++ '.' :: (F ++ post) = x ++ '.' :: v := by
      rw [← hx, hw, hn]
      simp
    obtain ⟨_, hv2⟩ := cons_unique '.' I (F ++ post) x v hI hFdot heq
    rcases hpost' with hp | hp
    · rw [hp, List.append_nil] at hv2
      rw [← hv2]
      exact hl
    · exfalso
      have hm : ')' ∈ v := by rw [← hv2, hp]; simp
      have := hv ')' hm
      revert this
      decide

/-- A text in the language of `validMoney` has at most four fraction digits. -/
theorem validMoney_frac (w : List Char) (h : Regex.Lang validMoney w) : fracAtMost4 w := by
  revert w
  unfold validMoney
  apply frac_cat _ _ (Regex.opt_within _ _ (lit_noDot '-' (by decide)))
  apply frac_cat _ _ (Regex.opt_within _ _ (lit_noDot '(' (by decide)))
  apply frac_cat _ _ (Regex.opt_within _ _ (lit_noDot '$' (by decide)))
  apply frac_cat _ _ (show Regex.within noDot (Regex.star Regex.space) from space_noDot)
  apply frac_cat _ _ (Regex.opt_within _ _ (lit_noDot '-' (by decide)))
  apply frac_cat _ _ (show Regex.within noDot (Regex.star Regex.space) from space_noDot)
  apply frac_cat _ _ (Regex.opt_within _ _ (lit_noDot '(' (by decide)))
  exact frac_number

/-! ## The decimal that is read has at most four fraction digits -/

theorem split_suffix (sep : Char) (w : List Char) :
    ∃ init last x, split sep w = init ++ [last] ∧ w = x ++ last ∧ (init = [] → x = []) := by
  induction w with
  | nil => exact ⟨[], [], [], rfl, rfl, fun _ => rfl⟩
  | cons c cs ih =>
    obtain ⟨init, last, x, h1, h2, h3⟩ := ih
    unfold split
    by_cases hc : c = sep
    · rw [if_pos hc, h1]
      exact ⟨[] :: init, last, c :: x, rfl, by rw [h2]; rfl, fun h => by cases h⟩
    · rw [if_neg hc, h1]
      cases init with
      | nil =>
        have hx := h3 rfl
        subst hx
        exact ⟨[], c :: last, [], rfl, by rw [h2]; rfl, fun _ => rfl⟩
      | cons i is =>
        exact ⟨(c :: i) :: is, last, c :: x, rfl, by rw [h2]; rfl, fun h => by cases h⟩

/-- The numeral is the end of the text without commas. -/
theorem numeral_suffix (amount : GoString) :
    ∃ x, removeChar ',' amount.toList = x ++ numeral amount := by
  obtain ⟨init, last, x, h1, h2, _⟩ := split_suffix '$' (removeChar ',' amount.toList)
  refine ⟨x, ?_⟩
  unfold numeral
  rw [h1, lastField_snoc]
  exact h2

theorem readSign_suffix (s : List Char) : ∃ x, s = x ++ (readSign s).2 := by
  unfold readSign
  split
  · exact ⟨['-'], rfl⟩
  · exact ⟨['+'], rfl⟩
  · exact ⟨[], rfl⟩

theorem isDigit_of (c : Char) (h : '0' ≤ c ∧ c ≤ '9') : isDigit c = true := by
  unfold isDigit
  simp [h.1, h.2]

/-- The count `frac` of the digit loop is the number of characters after the point. -/
theorem readDigits_frac (l : List Char) :
    ∀ (st st' : DigitScan), readDigits l st = some st' →
      (st.sawdot = true →
        st'.frac = st.frac + l.length ∧ ∀ c ∈ l, isDigit c = true) ∧
      (st.sawdot = false →
        st'.frac = st.frac ∨
        ∃ u v, l = u ++ '.' :: v ∧ (∀ c ∈ v, isDigit c = true) ∧
          st'.frac = st.frac + v.length) := by
  induction l with
  | nil =>
    intro st st' h
    unfold readDigits at h
    cases h
    exact ⟨fun _ => ⟨rfl, fun c hc => by cases hc⟩, fun _ => Or.inl rfl⟩
  | cons x xs ih =>
    intro st st' h
    unfold readDigits at h
    by_cases hdot : x = '.'
    · rw [if_pos hdot] at h
      by_cases hs : st.sawdot = true
      · rw [if_pos hs] at h
        cases h
      · rw [if_neg hs] at h
        have h1 := (ih _ _ h).1 rfl
        refine ⟨fun ht => absurd ht hs, fun _ => Or.inr ⟨[], xs, ?_, h1.2, h1.1⟩⟩
        rw [hdot]
        rfl
    · rw [if_neg hdot] at h
      by_cases hd : '0' ≤ x ∧ x ≤ '9'
      · rw [if_pos hd] at h
        have hih := ih _ _ h
        constructor
        · intro ht
          have h1 := hih.1 ht
          simp only [ht, if_true] at h1
          refine ⟨?_, ?_⟩
          · rw [h1.1, List.length_cons]
            omega
          · intro c hc
            rcases List.mem_cons.mp hc with hx | hx
            · rw [hx]; exact isDigit_of x hd
            · exact h1.2 c hx
        · intro hf
          have h2 := hih.2 hf
          simp only [hf, Bool.false_eq_true, if_false] at h2
          rcases h2 with h2 | ⟨u, v, hl, hv, hfr⟩
          · exact Or.inl h2
          · exact Or.inr ⟨x :: u, v, by rw [hl]; rfl, hv, hfr⟩
      · rw [if_neg hd] at h
        cases h

/-- A literal that passes `validMoney` reads as a decimal with at most four fraction
digits. -/
theorem frac_le_four (amount : GoString) (neg : Bool) (mant frac : Nat)
    (hre : validMoney.matchString (removeChar ',' amount.toList) = true)
    (hrd : readDecimal (numeral amount) = some (neg, mant, frac)) : frac ≤ 4 := by
  have hlang := validMoney_frac _ (Regex.matchString_sound _ validMoney hre)
  unfold readDecimal at hrd
  cases hr : readDigits (readSign (numeral amount)).2 ⟨0, 0, false, false⟩ with
  | none => rw [hr] at hrd; cases hrd
  | some st =>
    rw [hr] at hrd
    simp only at hrd
    by_cases hs : st.sawdigits = true
    · rw [if_pos hs] at hrd
      simp only [Option.some.injEq, Prod.mk.injEq] at hrd
      have hfrac : st.frac = frac := hrd.2.2
      rcases (readDigits_frac _ _ _ hr).2 rfl with h0 | ⟨u, v, hl, hv, hfr⟩
      · simp only at h0
        omega
      · obtain ⟨x1, hx1⟩ := numeral_suffix amount
        obtain ⟨x2, hx2⟩ := readSign_suffix (numeral amount)
        have hw : removeChar ',' amount.toList = (x1 ++ x2 ++ u) ++ '.' :: v := by
          rw [hx1, hx2, hl]
          simp
        have := hlang _ _ hw hv
        simp only at hfr
        omega
    · rw [if_neg hs] at hrd
      cases hrd

/-! ## An amount below one cent truncates to zero -/

theorem subcent_binade : 99 * one < 10000 * pow2 1068 := by decide

theorem subcent_margin : 10000 * pow2 1015 + 100 * pow2 1021 < 2 * one := by decide

/-- A decimal of at most `0.0099` rounds to a float whose product with `100` is below
`0.99` plus a rounding error. -/
theorem subcent_first (n d : Nat) (hd : 0 < d) (h : n * 10000 ≤ 99 * d) :
    20000 * roundMag n d ≤ 198 * one + 10000 * pow2 1015 := by
  have hlt : n * one / d < pow2 1068 := by
    apply (Nat.div_lt_iff_lt_mul hd).mpr
    have hA : n * one * 10000 ≤ 99 * d * one := by
      have := Nat.mul_le_mul_right one h
      have e1 : n * 10000 * one = n * one * 10000 := by ring
      rw [e1] at this
      exact this
    have hB : 99 * one * d < 10000 * pow2 1068 * d :=
      Nat.mul_lt_mul_of_pos_right subcent_binade hd
    have hC : n * one * 10000 < pow2 1068 * d * 10000 := by
      have e2 : 99 * d * one = 99 * one * d := by ring
      have e3 : pow2 1068 * d * 10000 = 10000 * pow2 1068 * d := by ring
      rw [e3]
      rw [e2] at hA
      exact Nat.lt_of_le_of_lt hA hB
    exact Nat.lt_of_mul_lt_mul_right hC
  have hL : log2 (n * one / d) < 1068 := log2_lt_of_lt_pow2 _ _ (by decide) hlt
  have hp : 2 ^ (log2 (n * one / d) - 52) ≤ pow2 1015 := by
    rw [← pow2_eq]
    exact pow2_mono _ _ (by omega)
  have herr := (roundMag_err n d hd).1
  generalize 2 ^ (log2 (n * one / d) - 52) = p at hp herr
  generalize roundMag n d = R at herr ⊢
  have h1 : 2 * one * (n * 10000) ≤ 2 * one * (99 * d) := Nat.mul_le_mul_left _ h
  have h2 : d * p ≤ d * pow2 1015 := Nat.mul_le_mul_left _ hp
  have hmul : (20000 * R) * d ≤ (198 * one + 10000 * pow2 1015) * d := by
    have e1 : (20000 * R) * d = 10000 * (2 * (R * d)) := by ring
    have e2 : (198 * one + 10000 * pow2 1015) * d =
        2 * one * (99 * d) + 10000 * (d * pow2 1015) := by ring
    have e3 : 2 * one * (n * 10000) = 10000 * (2 * (n * one)) := by ring
    rw [e1, e2]
    rw [e3] at h1
    have h3 : 10000 * (2 * (R * d)) ≤ 10000 * (2 * (n * one) + d * p) :=
      Nat.mul_le_mul_left _ herr
    have h4 : 10000 * (d * p) ≤ 10000 * (d * pow2 1015) := Nat.mul_le_mul_left _ h2
    have e4 : 10000 * (2 * (n * one) + d * p) = 10000 * (2 * (n * one)) + 10000 * (d * p) := by
      ring
    rw [e4] at h3
    omega
  exact Nat.le_of_mul_le_mul_right hmul hd

/-- A product below `0.99` plus a rounding error rounds to a float below `1`. -/
theorem subcent_second (x : Nat) (h : 200 * x ≤ 198 * one + 10000 * pow2 1015) :
    roundMag x one < one := by
  have hm := subcent_margin
  have hx : x < pow2 1074 := by
    rw [← one_eq_pow2]
    omega
  have hq : x * one / one = x := Nat.mul_div_cancel _ one_pos
  have hL : log2 (x * one / one) < 1074 := by
    rw [hq]
    exact log2_lt_of_lt_pow2 _ _ (by decide) hx
  have hp : 2 ^ (log2 (x * one / one) - 52) ≤ pow2 1021 := by
    rw [← pow2_eq]
    exact pow2_mono _ _ (by omega)
  have herr := (roundMag_err x one one_pos).1
  generalize 2 ^ (log2 (x * one / one) - 52) = p at hp herr
  generalize roundMag x one = R at herr ⊢
  have e1 : 2 * (R * one) = (2 * R) * one := by ring
  have e2 : 2 * (x * one) + one * p = (2 * x + p) * one := by ring
  rw [e1, e2] at herr
  have h2 := Nat.le_of_mul_le_mul_right herr one_pos
  omega

/-- With at most four fraction digits, a decimal below `0.01` is at most `0.0099`. -/
theorem subcent_decimal (mant frac : Nat) (hf : frac ≤ 4) (h : mant * 100 < 10 ^ frac) :
    mant * 10000 ≤ 99 * 10 ^ frac := by
  interval_cases frac <;> simp only [pow_zero, pow_one, Nat.reducePow] at h ⊢ <;> omega

theorem one_le_maxFinite : one ≤ maxFinite :=
  Nat.le_trans (Nat.le_mul_of_pos_left one (pow2_pos 53)) maxFinite_ge

/-- A float below `1` in magnitude converts to the integer 0. -/
theorem toInt64_small (cvt : F64 → Int) (neg : Bool) (mag : Nat) (h : mag < one) :
    (F64.ofMag neg mag).toInt64 cvt = 0 := by
  have hfin : ¬ maxFinite < mag := by
    have := one_le_maxFinite
    omega
  have hdiv : mag / one = 0 := Nat.div_eq_of_lt h
  unfold F64.ofMag
  rw [if_neg hfin]
  have ht : (F64.finite neg mag).trunc64 = some 0 := by
    show (let t : Int := if neg = true then -((mag / one : Nat) : Int) else ((mag / one : Nat) : Int)
      if inInt64 t then some t else none) = some 0
    rw [hdiv]
    cases neg <;> rfl
  unfold F64.toInt64
  rw [ht]

/-- A successful `SetString` on a literal below one cent stores 0 cents. -/
theorem SetString_subcent (cvt : F64 → Int) (m : Money) (s : GoString)
    (hs : (m.SetString cvt s).2 = none) (hsub : ¬ atLeastOneCent s) :
    (m.SetString cvt s).1.Int64 = 0 := by
  obtain ⟨f, hre, hpf, hval⟩ := SetString_success cvt m s hs
  obtain ⟨mant, frac, hrd, hf, _⟩ := ParseFloat_ok _ f hpf
  have hfrac := frac_le_four s _ mant frac hre hrd
  unfold atLeastOneCent at hsub
  rw [hrd] at hsub
  have hlt : mant * 100 < 10 ^ frac := Nat.lt_of_not_le hsub
  have hdec := subcent_decimal mant frac hfrac hlt
  have h1 := subcent_first mant (10 ^ frac) (Nat.pow_pos (by decide)) hdec
  have h2 : roundMag (roundMag mant (10 ^ frac) * 100) one < one :=
    subcent_second _ (by omega)
  subst hf
  have hmul : F64.mulNat (.finite (readSign (numeral s)).1 (roundMag mant (10 ^ frac))) 100 =
      F64.ofMag (readSign (numeral s)).1 (roundMag (roundMag mant (10 ^ frac) * 100) one) := rfl
  rw [hval, hmul, toInt64_small cvt _ _ h2]
  simp
set_option maxRecDepth 100000 in
/-- C1 (defect in the code).  The round trip through the canonical string loses a cent
at `n = 29`: `NewMoney(29).String()` is `"$0.29"`; `Scan` of these bytes returns no
error on any receiver and any platform, but `ParseFloat("0.29") * 100` is the float
`28.999999999999996`, which `int64` truncates, so the receiver ends with `Int64() = 28`
and `String() = "$0.28"` (which `Value()` then returns) instead of `29` and `"$0.29"`. -/
theorem C1_round_trip_loses_a_cent (cvt : F64 → Int) (m : Money) :
    (NewMoney 29).String = "$0.29" ∧
    m.Scan cvt (.bytes (NewMoney 29).String) = (⟨28, "$0.28"⟩, none) ∧
    (m.Scan cvt (.bytes (NewMoney 29).String)).1.Int64 ≠ 29 ∧
    (m.Scan cvt (.bytes (NewMoney 29).String)).1.String ≠ (NewMoney 29).String ∧
    (m.Scan cvt (.bytes (NewMoney 29).String)).1.Value = (.str "$0.28", none) := by
  have h0 : (NewMoney 29).String = "$0.29" := by decide
  have h1 : m.Scan cvt (.bytes "$0.29") = (⟨28, "$0.28"⟩, none) := by
    show m.SetString cvt "$0.29" = _
    rw [SetString_ok cvt m "$0.29" (.finite false (roundMag 29 100)) 28
      (by decide) (by rfl) (by decide)]
    decide
  rw [h0, h1]
  exact ⟨rfl, rfl, by decide, by decide, rfl⟩

set_option maxRecDepth 100000 in
/-- C2 (defect in the code).  The literals of the claim parse as it says
(`"$10.05"` to 1005, `"1,234,234.23"` to 123423423, `"-$123423423.05"` to -12342342305),
but the cents are the truncation of a float product, not of the decimal value: for
`"0.29"` (`I = 0`, `F = 29`, no `-`) the claim gives `0 * 100 + 29 = 29` and `SetString`
stores 28, and for `"-1.15"` the claim gives -115 and `SetString` stores -114. -/
theorem C2_parse_truncates_float_product (cvt : F64 → Int) (m : Money) :
    m.SetString cvt "$10.05" = (⟨1005, "$10.05"⟩, none) ∧
    m.SetString cvt "1,234,234.23" = (⟨123423423, "$1234234.23"⟩, none) ∧
    m.SetString cvt "-$123423423.05" = (⟨-12342342305, "-$123423423.05"⟩, none) ∧
    m.SetString cvt "0.29" = (⟨28, "$0.28"⟩, none) ∧
    m.SetString cvt "-1.15" = (⟨-114, "-$1.14"⟩, none) := by
  refine ⟨?_, ?_, ?_, ?_, ?_⟩
  · rw [SetString_ok cvt m "$10.05" (.finite false (roundMag 1005 100)) 1005
      (by decide) (by rfl) (by decide)]
    decide
  · rw [SetString_ok cvt m "1,234,234.23" (.finite false (roundMag 123423423 100)) 123423423
      (by decide) (by rfl) (by decide)]
    decide
  · rw [SetString_ok cvt m "-$123423423.05" (.finite false (roundMag 12342342305 100))
      12342342305 (by decide) (by rfl) (by decide)]
    decide
  · rw [SetString_ok cvt m "0.29" (.finite false (roundMag 29 100)) 28
      (by decide) (by rfl) (by decide)]
    decide
  · rw [SetString_ok cvt m "-1.15" (.finite true (roundMag 115 100)) (-114)
      (by decide) (by rfl) (by decide)]
    decide
set_option maxRecDepth 100000 in
/-- C3 (defect in the code).  For every `int64` cents value `c`, `NewMoney(c).String()`
has the form of the claim: it is the sign (`-` iff `c < 0`), `$`, a decimal numeral `D`,
a point and two digits, with exactly one `$`, where `D` has at least one digit, only
digits and no leading zero unless it is `0`; namely it is the canonical string of the
cents value `renderedCents c` that the float quotient `float64(c) / 100` rounds to.  Up to
`|c| = 7036874417766400` (`100 * 2^46`) that value is `c` itself, as the claim says.  At
`c = 7036874417766401` it is `7036874417766402`: the code prints
`"$70368744177664.02"`, whereas `|c| div 100` is `70368744177664` and `|c| mod 100` is
`01`. -/
theorem C3_rendering_shape_and_defect :
    (∀ c : Int, inInt64 c →
      (NewMoney c).String = canonical (renderedCents c) ∧
      (renderedCents c < 0 ↔ c < 0) ∧
      (NewMoney c).String.toList.count '$' = 1) ∧
    (∀ k : Int,
      decimal (k.natAbs / 100) ≠ [] ∧
      (∀ ch ∈ decimal (k.natAbs / 100), '0' ≤ ch ∧ ch ≤ '9') ∧
      (100 ≤ k.natAbs → (decimal (k.natAbs / 100)).head? ≠ some '0') ∧
      (k.natAbs < 100 → decimal (k.natAbs / 100) = ['0'])) ∧
    (∀ c : Int, c.natAbs ≤ 7036874417766400 →
      renderedCents c = c ∧ (NewMoney c).String = canonical c) ∧
    (NewMoney 7036874417766401).String = "$70368744177664.02" ∧
    canonical 7036874417766401 = "$70368744177664.01" ∧
    renderedCents 7036874417766401 = 7036874417766402 ∧
    (NewMoney 7036874417766401).String ≠ canonical 7036874417766401 := by
  refine ⟨?_, ?_, ?_, by decide, by decide, by decide, by decide⟩
  · intro c hc
    have hmain : (NewMoney c).String = canonical (renderedCents c) :=
      stringFromInt_rendered c hc
    refine ⟨hmain, renderedCents_neg c, ?_⟩
    rw [hmain]
    exact canonical_one_dollar _
  · intro k
    refine ⟨decimal_ne_nil _, decimal_digits _, ?_, ?_⟩
    · intro h100
      exact decimal_head _ (Nat.div_pos h100 (by decide))
    · intro hlt
      rw [Nat.div_eq_of_lt hlt]
      rfl
  · intro c hb
    exact ⟨renderedCents_exact c hb, stringFromInt_canonical c hb⟩

set_option maxRecDepth 100000 in
/-- Witness for C3: -66 is an `int64` within the bound; it renders as `"-$0.66"`, the
canonical string of -66, with one `$`. -/
theorem C3_rendering_shape_and_defect_witness :
    inInt64 (-66) ∧ (-66 : Int).natAbs ≤ 7036874417766400 ∧
    (NewMoney (-66)).String = canonical (renderedCents (-66)) ∧
    (NewMoney (-66)).String.toList.count '$' = 1 ∧
    renderedCents (-66) = -66 ∧
    (NewMoney (-66)).String = canonical (-66) ∧
    canonical (-66) = "-$0.66" :=
  ⟨by decide, by decide,
   (C3_rendering_shape_and_defect.1 (-66) (by decide)).1,
   (C3_rendering_shape_and_defect.1 (-66) (by decide)).2.2,
   (C3_rendering_shape_and_defect.2.2.1 (-66) (by decide)).1,
   (C3_rendering_shape_and_defect.2.2.1 (-66) (by decide)).2,
   by decide⟩
/-- C4.  The cached display is the rendering of the cents after `NewMoney`, `SetInt` and
`Add`, and after every `SetString` or `Scan` that returns no error; and `SetInt`, `Add`,
`SetString` and `Scan` keep it so once it holds, also when `SetString` or `Scan` return
an error (the accessors `String`, `Int64` and `Value` do not change the receiver). -/
theorem C4_display_consistent_with_cents :
    (∀ n : Int, Consistent (NewMoney n)) ∧
    (∀ (m : Money) (n : Int), Consistent (m.SetInt n)) ∧
    (∀ (m : Money) (k : Int), Consistent (m.Add k)) ∧
    (∀ (cvt : F64 → Int) (m : Money) (s : GoString),
      (m.SetString cvt s).2 = none → Consistent (m.SetString cvt s).1) ∧
    (∀ (cvt : F64 → Int) (m : Money) (v : DriverValue),
      (m.Scan cvt v).2 = none → Consistent (m.Scan cvt v).1) ∧
    (∀ (cvt : F64 → Int) (m : Money) (s : GoString),
      Consistent m → Consistent (m.SetString cvt s).1) ∧
    (∀ (cvt : F64 → Int) (m : Money) (v : DriverValue),
      Consistent m → Consistent (m.Scan cvt v).1) := by
  refine ⟨fun n => rfl, fun m n => rfl, fun m k => rfl, ?_, ?_, ?_, ?_⟩
  · intro cvt m s h
    rcases SetString_cases cvt m s with ⟨e, he⟩ | ⟨i, hi⟩
    · rw [he] at h; cases h
    · rw [hi]; rfl
  · intro cvt m v h
    rcases Scan_cases cvt m v with ⟨e, he⟩ | ⟨i, hi⟩
    · rw [he] at h; cases h
    · rw [hi]; rfl
  · intro cvt m s hm
    rcases SetString_cases cvt m s with ⟨e, he⟩ | ⟨i, hi⟩
    · rw [he]; exact hm
    · rw [hi]; rfl
  · intro cvt m v hm
    rcases Scan_cases cvt m v with ⟨e, he⟩ | ⟨i, hi⟩
    · rw [he]; exact hm
    · rw [hi]; rfl

set_option maxRecDepth 100000 in
/-- Witness for C4: `NewMoney(5)` is consistent, a `SetString` that fails on it
(`"abc"`) keeps it consistent and unchanged, and one that succeeds (`"$10.05"`) ends
consistent. -/
theorem C4_display_consistent_with_cents_witness :
    Consistent (NewMoney 5) ∧
    ((NewMoney 5).SetString cvtAmd64 "abc").2 ≠ none ∧
    Consistent ((NewMoney 5).SetString cvtAmd64 "abc").1 ∧
    ((NewMoney 5).SetString cvtAmd64 "$10.05").2 = none ∧
    Consistent ((NewMoney 5).SetString cvtAmd64 "$10.05").1 :=
  ⟨C4_display_consistent_with_cents.1 5,
   by decide,
   C4_display_consistent_with_cents.2.2.2.2.2.1 cvtAmd64 (NewMoney 5) "abc"
     (C4_display_consistent_with_cents.1 5),
   by decide,
   C4_display_consistent_with_cents.2.2.2.1 cvtAmd64 (NewMoney 5) "$10.05" (by decide)⟩
/-- An `int64` is left alone by the wrap. -/
theorem wrap64_of_inInt64 (x : Int) (h : inInt64 x) : wrap64 x = x := by
  unfold inInt64 at h
  unfold wrap64
  omega

set_option maxRecDepth 100000 in
/-- C5.  When `m.Int64() + k` is an `int64`, `Add(k)` leaves `Int64()` equal to the old
value plus `k` and `String()` equal to the rendering `stringFromInt` of that sum, which
is the canonical string `[-]$D.DD` of the sum when this is at most `100 * 2^46` in
magnitude; `NewMoney(n)` followed by `Add(k)` is `NewMoney(n + k)`;
`NewMoney(n).Int64()` is `n`; and `NewMoney(534).Add(-600)` has -66 cents and display
`"-$0.66"`. -/
theorem C5_add_is_integer_addition :
    (∀ (m : Money) (k : Int), inInt64 (m.Int64 + k) →
      (m.Add k).Int64 = m.Int64 + k ∧ (m.Add k).String = stringFromInt (m.Int64 + k) ∧
      ((m.Int64 + k).natAbs ≤ 7036874417766400 →
        (m.Add k).String = canonical (m.Int64 + k))) ∧
    (∀ n k : Int, inInt64 (n + k) → (NewMoney n).Add k = NewMoney (n + k)) ∧
    (∀ n : Int, (NewMoney n).Int64 = n) ∧
    (NewMoney 534).Add (-600) = ⟨-66, "-$0.66"⟩ := by
  refine ⟨?_, ?_, fun n => rfl, by decide⟩
  · intro m k h
    simp only [Money.Add, Money.SetInt, Money.Int64, Money.String] at *
    rw [wrap64_of_inInt64 _ h]
    exact ⟨rfl, rfl, fun hb => stringFromInt_canonical _ hb⟩
  · intro n k h
    simp only [Money.Add, Money.SetInt, Money.Int64, NewMoney] at *
    rw [wrap64_of_inInt64 _ h]

set_option maxRecDepth 100000 in
/-- Witness for C5: `534 + (-600)` is an `int64`, and the sum is -66 with display
`"-$0.66"`. -/
theorem C5_add_is_integer_addition_witness :
    inInt64 ((NewMoney 534).Int64 + (-600)) ∧
    ((NewMoney 534).Add (-600)).Int64 = (NewMoney 534).Int64 + (-600) ∧
    ((NewMoney 534).Add (-600)).String = stringFromInt ((NewMoney 534).Int64 + (-600)) ∧
    ((NewMoney 534).Add (-600)).String = canonical ((NewMoney 534).Int64 + (-600)) ∧
    (NewMoney 534).Add (-600) = NewMoney (534 + (-600)) :=
  ⟨by decide,
   (C5_add_is_integer_addition.1 (NewMoney 534) (-600) (by decide)).1,
   (C5_add_is_integer_addition.1 (NewMoney 534) (-600) (by decide)).2.1,
   (C5_add_is_integer_addition.1 (NewMoney 534) (-600) (by decide)).2.2 (by decide),
   C5_add_is_integer_addition.2.1 534 (-600) (by decide)⟩
set_option maxRecDepth 100000 in
/-- C6 (amended).  For every input on which `SetString` succeeds: the cents are `<= 0`
if the input contains `-` anywhere; the cents are `>= 0` if it contains no `-` and the
truncated product `f_amount * 100` fits `int64` (beyond that range the result of the
conversion `int64(..)` is implementation-dependent); and `"-$-10"` gives -1000, it is
not negated twice. -/
theorem C6_sign_follows_minus (cvt : F64 → Int) (m : Money) :
    (∀ s : GoString, (m.SetString cvt s).2 = none → containsChar '-' s.toList = true →
      (m.SetString cvt s).1.Int64 ≤ 0) ∧
    (∀ s : GoString, (m.SetString cvt s).2 = none → containsChar '-' s.toList = false →
      productInRange s → 0 ≤ (m.SetString cvt s).1.Int64) ∧
    m.SetString cvt "-$-10" = (⟨-1000, "-$10.00"⟩, none) := by
  refine ⟨?_, ?_, ?_⟩
  · intro s hs hminus
    obtain ⟨f, _, _, hval⟩ := SetString_success cvt m s hs
    rw [hval, hminus]
    have hr := toInt64_inInt64 cvt (f.mulNat 100)
    generalize (f.mulNat 100).toInt64 cvt = i at *
    by_cases hi : 0 < i
    · simp only [hi, decide_True, Bool.and_self, if_true]
      unfold inInt64 at hr
      unfold wrap64
      omega
    · simp only [hi, decide_False, Bool.and_false, Bool.false_eq_true, if_false]
      omega
  · intro s hs hminus hrange
    obtain ⟨f, _, hpf, hval⟩ := SetString_success cvt m s hs
    rw [hval, hminus]
    simp only [Bool.false_and, Bool.false_eq_true, if_false]
    unfold productInRange at hrange
    rw [hpf] at hrange
    obtain ⟨mant, frac, _, hf, _⟩ := ParseFloat_ok _ f hpf
    have hsign : (readSign (numeral s)).1 = false := by
      cases hb : (readSign (numeral s)).1 with
      | false => rfl
      | true =>
        have h1 := mem_of_mem_numeral '-' s (readSign_neg _ hb)
        have h2 := (containsChar_iff '-' s.toList).mpr h1
        rw [hminus] at h2
        cases h2
    rw [hsign] at hf
    subst hf
    unfold F64.toInt64
    cases ht : (F64.mulNat (.finite false (roundMag mant (10 ^ frac))) 100).trunc64 with
    | none =>
      have hr : (F64.mulNat (.finite false (roundMag mant (10 ^ frac))) 100).trunc64.isSome = true :=
        hrange
      rw [ht] at hr
      cases hr
    | some t => exact trunc64_nonneg _ t ht
  · rw [SetString_ok cvt m "-$-10" (.finite true (roundMag 10 1)) (-1000)
      (by decide) (by rfl) (by decide)]
    decide

set_option maxRecDepth 100000 in
/-- Witness for C6: `"-$10.05"` has a `-` and gives -1005; `"$10.05"` has none, its
product is in range, and it gives 1005. -/
theorem C6_sign_follows_minus_witness :
    (Money.zero.SetString cvtAmd64 "-$10.05").2 = none ∧
    containsChar '-' "-$10.05".toList = true ∧
    (Money.zero.SetString cvtAmd64 "-$10.05").1.Int64 ≤ 0 ∧
    (Money.zero.SetString cvtAmd64 "$10.05").2 = none ∧
    containsChar '-' "$10.05".toList = false ∧
    productInRange "$10.05" ∧
    0 ≤ (Money.zero.SetString cvtAmd64 "$10.05").1.Int64 :=
  ⟨by decide, by decide,
   (C6_sign_follows_minus cvtAmd64 Money.zero).1 "-$10.05" (by decide) (by decide),
   by decide, by decide, by decide,
   (C6_sign_follows_minus cvtAmd64 Money.zero).2.1 "$10.05" (by decide) (by decide) (by decide)⟩

set_option maxRecDepth 100000 in
/-- Counterexample to C6 as stated: `"100000000000000000"` contains no `-` and
`SetString` succeeds on it, but the product `1e19` is beyond `int64`, where the amd64
conversion yields `-2^63`: the cents are negative. -/
theorem C6_sign_counterexample :
    containsChar '-' "100000000000000000".toList = false ∧
    (Money.zero.SetString cvtAmd64 "100000000000000000").2 = none ∧
    (Money.zero.SetString cvtAmd64 "100000000000000000").1.Int64 = -9223372036854775808 ∧
    ¬ (0 ≤ (Money.zero.SetString cvtAmd64 "100000000000000000").1.Int64) := by
  decide
theorem neverZero_amd64 : neverZero cvtAmd64 := by
  intro f
  unfold cvtAmd64 wrap64
  omega

theorem neverZero_arm64 : neverZero cvtArm64 := by
  intro f
  cases f with
  | finite neg mag => cases neg <;> simp only [cvtArm64, wrap64] <;> omega
  | inf neg => cases neg <;> simp only [cvtArm64, wrap64] <;> omega

/-- A successful `SetString` on a literal that contains `-` and is worth at least one
cent stores cents strictly below 0, when the truncated product fits `int64` or the
conversion of an out-of-range float never gives 0. -/
theorem SetString_negative (cvt : F64 → Int) (m : Money) (s : GoString)
    (hs : (m.SetString cvt s).2 = none) (hminus : containsChar '-' s.toList = true)
    (hcent : atLeastOneCent s) (hrange : productInRange s ∨ neverZero cvt) :
    (m.SetString cvt s).1.Int64 < 0 := by
  obtain ⟨f, _, hpf, hval⟩ := SetString_success cvt m s hs
  obtain ⟨mant, frac, hrd, hf, _⟩ := ParseFloat_ok _ f hpf
  unfold atLeastOneCent at hcent
  rw [hrd] at hcent
  have hcent' : 10 ^ frac ≤ mant * 100 := hcent
  unfold productInRange at hrange
  rw [hpf] at hrange
  have hrange' : (f.mulNat 100).trunc64.isSome = true ∨ neverZero cvt := hrange
  have h1 : one ≤ roundMag mant (10 ^ frac) * 100 :=
    cent_lower mant (10 ^ frac) (Nat.pow_pos (by decide)) hcent'
  have h2 : one ≤ roundMag (roundMag mant (10 ^ frac) * 100) one := roundMag_ge_one _ h1
  have hq : 1 ≤ roundMag (roundMag mant (10 ^ frac) * 100) one / one :=
    (Nat.le_div_iff_mul_le one_pos).mpr (by omega)
  rw [hval, hminus]
  subst hf
  have hmul : F64.mulNat (.finite (readSign (numeral s)).1 (roundMag mant (10 ^ frac))) 100 =
      F64.ofMag (readSign (numeral s)).1 (roundMag (roundMag mant (10 ^ frac) * 100) one) := rfl
  rw [hmul] at hrange' ⊢
  unfold F64.toInt64
  simp only [Bool.true_and]
  cases ht : (F64.ofMag (readSign (numeral s)).1
      (roundMag (roundMag mant (10 ^ frac) * 100) one)).trunc64 with
  | none =>
    rw [ht] at hrange'
    rcases hrange' with hsome | hcvt
    · cases hsome
    · have hne := hcvt (F64.ofMag (readSign (numeral s)).1
        (roundMag (roundMag mant (10 ^ frac) * 100) one))
      have hin := wrap64_inInt64 (cvt (F64.ofMag (readSign (numeral s)).1
        (roundMag (roundMag mant (10 ^ frac) * 100) one)))
      simp only
      generalize wrap64 (cvt (F64.ofMag (readSign (numeral s)).1
        (roundMag (roundMag mant (10 ^ frac) * 100) one))) = i at *
      unfold inInt64 at hin
      by_cases hi : 0 < i
      · simp only [hi, decide_True, if_true]
        unfold wrap64
        omega
      · simp only [hi, decide_False, Bool.false_eq_true, if_false]
        omega
  | some t =>
    obtain ⟨hteq, htin⟩ := trunc64_ofMag _ _ t ht
    simp only
    generalize roundMag (roundMag mant (10 ^ frac) * 100) one / one = q at *
    unfold inInt64 at htin
    cases hneg : (readSign (numeral s)).1 with
    | true =>
      rw [hneg] at hteq
      simp only [if_true] at hteq
      have hlt : ¬ (0 < t) := by omega
      simp only [hlt, decide_False, Bool.false_eq_true, if_false]
      omega
    | false =>
      rw [hneg] at hteq
      simp only [Bool.false_eq_true, if_false] at hteq
      have hlt : 0 < t := by omega
      simp only [hlt, decide_True, if_true]
      unfold wrap64
      omega

/-- C7 (amended).  For every input containing `-` on which `SetString` succeeds: the
cents are strictly below 0 when the magnitude of the literal is at least one cent
(`0.01`), provided the truncated product `f_amount * 100` fits `int64` or the platform
never converts an out-of-range float to 0; and the cents are exactly 0 when the
magnitude of the literal is below one cent. -/
theorem C7_strictly_negative (cvt : F64 → Int) (m : Money) (s : GoString)
    (hs : (m.SetString cvt s).2 = none) (hminus : containsChar '-' s.toList = true) :
    (atLeastOneCent s → (productInRange s ∨ neverZero cvt) →
      (m.SetString cvt s).1.Int64 < 0) ∧
    (¬ atLeastOneCent s → (m.SetString cvt s).1.Int64 = 0) :=
  ⟨fun hcent hrange => SetString_negative cvt m s hs hminus hcent hrange,
   fun hsub => SetString_subcent cvt m s hs hsub⟩

set_option maxRecDepth 100000 in
/-- Witness for C7: `"-$10.05"` contains `-`, parses, is worth at least one cent, its
product is in range, and the cents are below 0; `"-0.0099"` contains `-`, parses, is
worth less than one cent, and the cents are 0. -/
theorem C7_strictly_negative_witness :
    ((Money.zero.SetString cvtAmd64 "-$10.05").2 = none ∧
      containsChar '-' "-$10.05".toList = true ∧
      atLeastOneCent "-$10.05" ∧ (productInRange "-$10.05" ∨ neverZero cvtAmd64) ∧
      (Money.zero.SetString cvtAmd64 "-$10.05").1.Int64 < 0) ∧
    ((Money.zero.SetString cvtAmd64 "-0.0099").2 = none ∧
      containsChar '-' "-0.0099".toList = true ∧
      ¬ atLeastOneCent "-0.0099" ∧
      (Money.zero.SetString cvtAmd64 "-0.0099").1.Int64 = 0) :=
  ⟨⟨by decide, by decide, by decide, Or.inl (by decide),
    (C7_strictly_negative cvtAmd64 Money.zero "-$10.05" (by decide) (by decide)).1
      (by decide) (Or.inl (by decide))⟩,
   ⟨by decide, by decide, by decide,
    (C7_strictly_negative cvtAmd64 Money.zero "-0.0099" (by decide) (by decide)).2
      (by decide)⟩⟩

/-- Counterexample to C7 as stated: `"-0.001"` contains `-`, `SetString` succeeds on
it on any receiver and platform, its magnitude `1 / 10^3` is not zero, and the cents
are 0, not below 0. -/
theorem C7_strict_negativity_counterexample :
    containsChar '-' "-0.001".toList = true ∧
    nonzeroMagnitude "-0.001" ∧
    readDecimal (numeral "-0.001") = some (true, 1, 3) ∧
    (∀ (cvt : F64 → Int) (m : Money), m.SetString cvt "-0.001" = (⟨0, "$0.00"⟩, none)) ∧
    ¬ ((Money.zero.SetString cvtAmd64 "-0.001").1.Int64 < 0) := by
  refine ⟨by decide, by decide, by decide, ?_, by decide⟩
  intro cvt m
  rw [SetString_ok cvt m "-0.001" (.finite true (roundMag 1 1000)) 0
    (by decide) (by rfl) (by decide)]
  decide
/-- Removing the commas twice is removing them once. -/
theorem removeChar_idem (c : Char) (s : List Char) :
    removeChar c (removeChar c s) = removeChar c s := by
  unfold removeChar
  rw [List.filter_filter]
  simp

/-- Removing the commas does not change whether there is a `-`. -/
theorem containsChar_removeChar (s : List Char) :
    containsChar '-' (removeChar ',' s) = containsChar '-' s := by
  induction s with
  | nil => rfl
  | cons x xs ih =>
    unfold containsChar removeChar at *
    by_cases hx : x = ','
    · subst hx
      simpa using ih
    · simp only [List.filter_cons, bne_iff_ne, ne_eq, hx, not_false_eq_true, if_true,
        List.any_cons, ih]

set_option maxRecDepth 100000 in
/-- C8.  From the same receiver, `SetString(s)` and `SetString` of `s` with every `,`
removed end in the same receiver and return the same error (the same text in it
included), or both return none; `"123,423,423"` and `"123423423"` both give
12342342300 cents and the display `"$123423423.00"`. -/
theorem C8_commas_are_ignored (cvt : F64 → Int) (m : Money) :
    (∀ s : GoString,
      m.SetString cvt s = m.SetString cvt (String.mk (removeChar ',' s.toList))) ∧
    m.SetString cvt "123,423,423" = (⟨12342342300, "$123423423.00"⟩, none) ∧
    m.SetString cvt "123423423" = (⟨12342342300, "$123423423.00"⟩, none) := by
  refine ⟨?_, ?_, ?_⟩
  · intro s
    have e : (String.mk (removeChar ',' s.toList)).toList = removeChar ',' s.toList := rfl
    rw [SetString_eq, SetString_eq]
    simp only [numeral, e, removeChar_idem, containsChar_removeChar]
  · rw [SetString_ok cvt m "123,423,423" (.finite false (roundMag 123423423 1)) 12342342300
      (by decide) (by rfl) (by decide)]
    decide
  · rw [SetString_ok cvt m "123423423" (.finite false (roundMag 123423423 1)) 12342342300
      (by decide) (by rfl) (by decide)]
    decide
/-- C9.  `Money.Scan` returns an error and leaves the receiver unchanged when the value
is nil, and when it is not a `[]uint8`; for a `[]uint8` it returns what
`SetString(string(b))` returns and ends in the receiver `SetString` produces. -/
theorem C9_money_scan_dispatch (cvt : F64 → Int) (m : Money) :
    m.Scan cvt .nil = (m, some .nilValue) ∧
    (∀ v : DriverValue, v ≠ .nil → (∀ b, v ≠ .bytes b) →
      m.Scan cvt v = (m, some (.wrongType v))) ∧
    (∀ b : GoString, m.Scan cvt (.bytes b) = m.SetString cvt b) := by
  refine ⟨rfl, ?_, fun b => rfl⟩
  intro v hnil hbytes
  cases v with
  | nil => exact absurd rfl hnil
  | bytes b => exact absurd rfl (hbytes b)
  | str s => rfl
  | int64 i => rfl
  | float64 f => rfl
  | bool b => rfl

/-- Witness for C9: a Go `string` is neither nil nor a `[]uint8`; scanning it fails and
leaves `NewMoney(5)` unchanged. -/
theorem C9_money_scan_dispatch_witness :
    DriverValue.str "10.05" ≠ .nil ∧ (∀ b, DriverValue.str "10.05" ≠ .bytes b) ∧
    (NewMoney 5).Scan cvtAmd64 (.str "10.05") = (NewMoney 5, some (.wrongType (.str "10.05"))) :=
  ⟨by simp, by simp,
   (C9_money_scan_dispatch cvtAmd64 (NewMoney 5)).2.1 (.str "10.05") (by simp) (by simp)⟩
/-- C10.  On every `NullMoney`, `Scan(nil)` returns no error and leaves `Valid` false and
`Money` nil; on every `NullMoney` with `Valid` false, `Value()` returns nil and no
error. -/
theorem C10_null_semantics :
    (∀ (cvt : F64 → Int) (nm : NullMoney), nm.Scan cvt .nil = (⟨none, false⟩, none)) ∧
    (∀ nm : NullMoney, nm.Valid = false → nm.Value = some (.nil, none)) := by
  refine ⟨fun cvt nm => rfl, ?_⟩
  intro nm h
  simp [NullMoney.Value, h]

/-- Witness for C10: a `NullMoney` with `Valid` false (even with a `Money` left in it)
gives nil and no error. -/
theorem C10_null_semantics_witness :
    (⟨some (NewMoney 5), false⟩ : NullMoney).Valid = false ∧
    (⟨some (NewMoney 5), false⟩ : NullMoney).Value = some (.nil, none) :=
  ⟨rfl, C10_null_semantics.2 ⟨some (NewMoney 5), false⟩ rfl⟩

/-- On a value that is not nil, `NullMoney.Scan` runs `Money.Scan` on a fresh
`NewMoney(0)` and keeps the result or clears the receiver. -/
theorem NullScan_eq (cvt : F64 → Int) (nm : NullMoney) (v : DriverValue) (hv : v ≠ .nil) :
    nm.Scan cvt v =
      match (NewMoney 0).Scan cvt v with
      | (_, some err) => (⟨none, false⟩, some err)
      | (m, none) => (⟨some m, true⟩, none) := by
  cases v with
  | nil => exact absurd rfl hv
  | bytes b => rfl
  | str s => rfl
  | int64 i => rfl
  | float64 f => rfl
  | bool b => rfl

/-- C11.  For every value that is not nil and every previous state, `NullMoney.Scan`
returns the error `Money.Scan` returns on a fresh `NewMoney(0)` (so one succeeds iff
the other does); on success `Valid` is true, the `Money` owned is the one `Money.Scan`
produces (same cents, same display, which is the rendering of the cents), and
`Value()` returns that display with no error. -/
theorem C11_null_scan_agrees_with_money_scan (cvt : F64 → Int) (nm : NullMoney)
    (v : DriverValue) (hv : v ≠ .nil) :
    (nm.Scan cvt v).2 = ((NewMoney 0).Scan cvt v).2 ∧
    ((nm.Scan cvt v).2 = none ↔ ((NewMoney 0).Scan cvt v).2 = none) ∧
    (((NewMoney 0).Scan cvt v).2 = none →
      (nm.Scan cvt v).1 = ⟨some ((NewMoney 0).Scan cvt v).1, true⟩ ∧
      ((NewMoney 0).Scan cvt v).1.String = stringFromInt ((NewMoney 0).Scan cvt v).1.Int64 ∧
      (nm.Scan cvt v).1.Value = some (.str ((NewMoney 0).Scan cvt v).1.String, none)) := by
  rw [NullScan_eq cvt nm v hv]
  rcases Scan_cases cvt (NewMoney 0) v with ⟨e, he⟩ | ⟨i, hi⟩
  · rw [he]
    refine ⟨rfl, Iff.rfl, ?_⟩
    intro h
    cases h
  · rw [hi]
    exact ⟨rfl, Iff.rfl, fun _ => ⟨rfl, rfl, rfl⟩⟩

set_option maxRecDepth 100000 in
/-- Witness for C11: the bytes `"$10.05"` are not nil; scanning them into a
`NullMoney` that held 5 cents succeeds and owns 1005 cents. -/
theorem C11_null_scan_agrees_with_money_scan_witness :
    DriverValue.bytes "$10.05" ≠ .nil ∧
    ((NewMoney 0).Scan cvtAmd64 (.bytes "$10.05")).2 = none ∧
    ((⟨some (NewMoney 5), true⟩ : NullMoney).Scan cvtAmd64 (.bytes "$10.05")).1 =
      ⟨some ((NewMoney 0).Scan cvtAmd64 (.bytes "$10.05")).1, true⟩ ∧
    ((⟨some (NewMoney 5), true⟩ : NullMoney).Scan cvtAmd64 (.bytes "$10.05")).1.Value =
      some (.str "$10.05", none) :=
  ⟨by simp, by decide,
   ((C11_null_scan_agrees_with_money_scan cvtAmd64 ⟨some (NewMoney 5), true⟩
      (.bytes "$10.05") (by simp)).2.2 (by decide)).1,
   by decide⟩

/-- C12.  For every `NullMoney` state and every value that is not nil on which the scan
fails, `NullMoney.Scan` returns the error of `Money.Scan` and leaves `Valid` false and
`Money` nil. -/
theorem C12_failed_null_scan_clears (cvt : F64 → Int) (nm : NullMoney) (v : DriverValue)
    (hv : v ≠ .nil) (hfail : (nm.Scan cvt v).2 ≠ none) :
    (nm.Scan cvt v).1 = ⟨none, false⟩ ∧
    (nm.Scan cvt v).1.Valid = false ∧ (nm.Scan cvt v).1.Money = none ∧
    (nm.Scan cvt v).2 = ((NewMoney 0).Scan cvt v).2 := by
  rw [NullScan_eq cvt nm v hv] at hfail ⊢
  rcases Scan_cases cvt (NewMoney 0) v with ⟨e, he⟩ | ⟨i, hi⟩
  · rw [he]
    exact ⟨rfl, rfl, rfl, rfl⟩
  · rw [hi] at hfail
    exact absurd rfl hfail

set_option maxRecDepth 100000 in
/-- Witness for C12: a valid `NullMoney` holding 5 cents is cleared by a scan of the
bytes `"abc"` (text that does not parse) and by a scan of a Go `string` (wrong
type). -/
theorem C12_failed_null_scan_clears_witness :
    DriverValue.bytes "abc" ≠ .nil ∧
    ((⟨some (NewMoney 5), true⟩ : NullMoney).Scan cvtAmd64 (.bytes "abc")).2 ≠ none ∧
    ((⟨some (NewMoney 5), true⟩ : NullMoney).Scan cvtAmd64 (.bytes "abc")).1 = ⟨none, false⟩ ∧
    ((⟨some (NewMoney 5), true⟩ : NullMoney).Scan cvtAmd64 (.str "10")).1 = ⟨none, false⟩ :=
  ⟨by simp, by decide,
   (C12_failed_null_scan_clears cvtAmd64 ⟨some (NewMoney 5), true⟩ (.bytes "abc") (by simp)
      (by decide)).1,
   (C12_failed_null_scan_clears cvtAmd64 ⟨some (NewMoney 5), true⟩ (.str "10") (by simp)
      (by decide)).1⟩

/-- C13 (amended).  Whenever `Money.Scan` fails (nil value, wrong type, or text that does
not parse), the receiver is left exactly as it was: same cents, same display.  It is
not cleared. -/
theorem C13_failed_money_scan_keeps_receiver (cvt : F64 → Int) (m : Money) (v : DriverValue)
    (hfail : (m.Scan cvt v).2 ≠ none) :
    (m.Scan cvt v).1 = m ∧ (m.Scan cvt v).1.Int64 = m.Int64 ∧
    (m.Scan cvt v).1.String = m.String := by
  rcases Scan_cases cvt m v with ⟨e, he⟩ | ⟨i, hi⟩
  · rw [he]
    exact ⟨rfl, rfl, rfl⟩
  · rw [hi] at hfail
    exact absurd rfl hfail

set_option maxRecDepth 100000 in
/-- Witness for C13: `NewMoney(534)` keeps its 534 cents through a failing scan of the
bytes `"abc"`. -/
theorem C13_failed_money_scan_keeps_receiver_witness :
    ((NewMoney 534).Scan cvtAmd64 (.bytes "abc")).2 ≠ none ∧
    ((NewMoney 534).Scan cvtAmd64 (.bytes "abc")).1 = NewMoney 534 ∧
    ((NewMoney 534).Scan cvtAmd64 (.bytes "abc")).1.Int64 = 534 :=
  ⟨by decide,
   (C13_failed_money_scan_keeps_receiver cvtAmd64 (NewMoney 534) (.bytes "abc") (by decide)).1,
   (C13_failed_money_scan_keeps_receiver cvtAmd64 (NewMoney 534) (.bytes "abc") (by decide)).2.1⟩

set_option maxRecDepth 100000 in
/-- Counterexample to C13 as stated: on `NewMoney(534)` the scans of nil, of a Go
`string` (wrong type) and of the bytes `"abc"` (text that does not parse) all fail, on any
platform, and the receiver still holds 534 cents, not 0. -/
theorem C13_failed_money_scan_counterexample :
    (∀ cvt : F64 → Int,
      (NewMoney 534).Scan cvt .nil = (⟨534, "$5.34"⟩, some .nilValue) ∧
      (NewMoney 534).Scan cvt (.str "10") = (⟨534, "$5.34"⟩, some (.wrongType (.str "10"))) ∧
      (NewMoney 534).Scan cvt (.bytes "abc") = (⟨534, "$5.34"⟩, some (.notMoney "abc"))) ∧
    ((NewMoney 534).Scan cvtAmd64 .nil).1.Int64 ≠ 0 := by
  have h : NewMoney 534 = ⟨534, "$5.34"⟩ := by decide
  refine ⟨fun cvt => ⟨?_, ?_, ?_⟩, by decide⟩
  · rw [h]; rfl
  · rw [h]; rfl
  · rw [h]
    show Money.SetString cvt _ "abc" = _
    rw [SetString_eq, if_neg (by decide)]
    rfl

/-- One call keeps "`Valid == false` goes with a nil `Money`". -/
theorem step_invalid (cvt : F64 → Int) (nm : NullMoney) (c : NullCall)
    (h : (nm.step cvt c).Valid = false) : (nm.step cvt c).Money = none := by
  cases c with
  | setMoney m => cases h
  | scan v =>
    simp only [NullMoney.step] at h ⊢
    by_cases hv : v = .nil
    · subst hv; rfl
    · rw [NullScan_eq cvt nm v hv] at h ⊢
      rcases Scan_cases cvt (NewMoney 0) v with ⟨e, he⟩ | ⟨i, hi⟩
      · rw [he]
      · rw [hi] at h; cases h

/-- One call other than `SetMoney(nil)` establishes the invariant. -/
theorem step_wellFormed (cvt : F64 → Int) (nm : NullMoney) (c : NullCall)
    (hc : c ≠ .setMoney none) : (nm.step cvt c).WellFormed := by
  refine ⟨step_invalid cvt nm c, ?_⟩
  cases c with
  | setMoney m =>
    intro _
    cases m with
    | none => exact absurd rfl hc
    | some x => simp [NullMoney.step, NullMoney.SetMoney]
  | scan v =>
    simp only [NullMoney.step]
    by_cases hv : v = .nil
    · subst hv
      intro h
      cases h
    · rw [NullScan_eq cvt nm v hv]
      rcases Scan_cases cvt (NewMoney 0) v with ⟨e, he⟩ | ⟨i, hi⟩
      · rw [he]
        intro h
        cases h
      · rw [hi]
        intro _
        simp

theorem run_append (cvt : F64 → Int) (calls : List NullCall) (c : NullCall) :
    NullMoney.run cvt (calls ++ [c]) = (NullMoney.run cvt calls).step cvt c := by
  unfold NullMoney.run
  rw [List.foldl_append]
  rfl

/-- C14 (amended).  Starting from the zero `NullMoney`, after any sequence of `SetMoney`
and `Scan` calls with any arguments, `Valid == false` implies that `Money` is nil; the
whole invariant (with `Valid == true` implying that `Money` is not nil) holds exactly
when the last call of the sequence is not `SetMoney(nil)`; and then `Value()` on a valid
`NullMoney` has a `Money` to render and returns its display with no error. -/
theorem C14_null_money_validity_invariant (cvt : F64 → Int) (calls : List NullCall) :
    ((NullMoney.run cvt calls).Valid = false → (NullMoney.run cvt calls).Money = none) ∧
    ((NullMoney.run cvt calls).WellFormed ↔ calls.getLast? ≠ some (NullCall.setMoney none)) ∧
    (calls.getLast? ≠ some (NullCall.setMoney none) →
      (NullMoney.run cvt calls).Valid = true →
        ∃ m, (NullMoney.run cvt calls).Money = some m ∧
          (NullMoney.run cvt calls).Value = some (.str m.String, none)) := by
  have hiff : (NullMoney.run cvt calls).WellFormed ↔
      calls.getLast? ≠ some (NullCall.setMoney none) := by
    rcases List.eq_nil_or_concat calls with h | ⟨l, c, h⟩
    · subst h
      constructor
      · intro _ hl
        cases hl
      · intro _
        exact ⟨fun _ => rfl, fun h => by cases h⟩
    · subst h
      have hlast : (l ++ [c]).getLast? = some c := by simp
      rw [List.concat_eq_append, run_append, hlast]
      simp only [ne_eq, Option.some.injEq]
      constructor
      · intro hwf hc
        subst hc
        exact hwf.2 rfl rfl
      · intro hc
        exact step_wellFormed cvt _ c hc
  refine ⟨?_, hiff, ?_⟩
  · rcases List.eq_nil_or_concat calls with h | ⟨l, c, h⟩
    · subst h
      intro _
      rfl
    · subst h
      rw [List.concat_eq_append, run_append]
      exact step_invalid cvt _ c
  · intro hlast hvalid
    have hne := (hiff.mpr hlast).2 hvalid
    cases hm : (NullMoney.run cvt calls).Money with
    | none => exact absurd hm hne
    | some m =>
      refine ⟨m, rfl, ?_⟩
      unfold NullMoney.Value
      rw [hvalid, hm]
      rfl

set_option maxRecDepth 100000 in
/-- Witness for C14: the calls `SetMoney(nil)`, `Scan("abc")`, `SetMoney(&m)` with 5
cents, `Scan(nil)`, `Scan("$10.05")` do not end with `SetMoney(nil)`; the receiver ends
well formed and valid with 1005 cents, and `Value()` returns `"$10.05"`. -/
theorem C14_null_money_validity_invariant_witness :
    [NullCall.setMoney none, .scan (.bytes "abc"), .setMoney (some (NewMoney 5)), .scan .nil,
        .scan (.bytes "$10.05")].getLast? ≠ some (NullCall.setMoney none) ∧
    (NullMoney.run cvtAmd64 [NullCall.setMoney none, .scan (.bytes "abc"),
        .setMoney (some (NewMoney 5)), .scan .nil, .scan (.bytes "$10.05")]).WellFormed ∧
    (NullMoney.run cvtAmd64 [NullCall.setMoney none, .scan (.bytes "abc"),
        .setMoney (some (NewMoney 5)), .scan .nil, .scan (.bytes "$10.05")]).Valid = true ∧
    (NullMoney.run cvtAmd64 [NullCall.setMoney none, .scan (.bytes "abc"),
        .setMoney (some (NewMoney 5)), .scan .nil, .scan (.bytes "$10.05")]).Value =
      some (.str "$10.05", none) :=
  ⟨by decide,
   (C14_null_money_validity_invariant cvtAmd64 [NullCall.setMoney none, .scan (.bytes "abc"),
      .setMoney (some (NewMoney 5)), .scan .nil, .scan (.bytes "$10.05")]).2.1.mpr (by decide),
   by decide,
   by decide⟩

set_option maxRecDepth 100000 in
/-- Counterexample to C14 as stated: the single call `SetMoney(nil)` on the zero
`NullMoney` leaves `Valid == true` with a nil `Money`, and `Value()` then dereferences
the nil pointer (a run-time panic, `none` here). -/
theorem C14_validity_invariant_counterexample :
    (NullMoney.run cvtAmd64 [NullCall.setMoney none]).Valid = true ∧
    (NullMoney.run cvtAmd64 [NullCall.setMoney none]).Money = none ∧
    ¬ (NullMoney.run cvtAmd64 [NullCall.setMoney none]).WellFormed ∧
    (NullMoney.run cvtAmd64 [NullCall.setMoney none]).Value = none := by
  decide

set_option maxRecDepth 100000 in
/-- C15 (defect in the code).  `validMoney` lets the parentheses through, but they are
not removed before `ParseFloat`: `"($10.00)"` and `"(10.00)"` match the pattern and
`SetString` then fails with the syntax error of `ParseFloat("10.00)")` and of
`ParseFloat("(10.00)")`, leaving the receiver alone, whereas `"$10.00"` and `"10.00"`
give 1000 cents.  Every input that ends in `)` is rejected, on any receiver and
platform. -/
theorem C15_parenthesised_literals_rejected (cvt : F64 → Int) (m : Money) :
    validMoney.matchString (removeChar ',' "($10.00)".toList) = true ∧
    validMoney.matchString (removeChar ',' "(10.00)".toList) = true ∧
    m.SetString cvt "($10.00)" = (m, some (.parseFloat "10.00)" .malformed)) ∧
    m.SetString cvt "(10.00)" = (m, some (.parseFloat "(10.00)" .malformed)) ∧
    m.SetString cvt "$10.00" = (⟨1000, "$10.00"⟩, none) ∧
    m.SetString cvt "10.00" = (⟨1000, "$10.00"⟩, none) ∧
    (∀ t : GoString,
      (m.SetString cvt (t ++ ")")).2 ≠ none ∧ (m.SetString cvt (t ++ ")")).1 = m) := by
  refine ⟨by decide, by decide, ?_, ?_, ?_, ?_, ?_⟩
  · rw [SetString_parse_error cvt m "($10.00)" .malformed (by decide) (by rfl)]
    rfl
  · rw [SetString_parse_error cvt m "(10.00)" .malformed (by decide) (by rfl)]
    rfl
  · rw [SetString_ok cvt m "$10.00" (.finite false (roundMag 1000 100)) 1000
      (by decide) (by rfl) (by decide)]
    decide
  · rw [SetString_ok cvt m "10.00" (.finite false (roundMag 1000 100)) 1000
      (by decide) (by rfl) (by decide)]
    decide
  · intro t
    exact SetString_fails cvt m _
      (readDecimal_none_of_char _ ')' (numeral_snoc_paren t) (by decide) (by decide)
        (by decide) (by decide))

set_option maxRecDepth 100000 in
/-- C16 (defect in the code).  `validMoney` lets white space through after the `$` and
after the `-`, but it is not removed before `ParseFloat`: `"$ 10.05"`, `"-$ 10.05"` and
`"- 10.05"` match the pattern and `SetString` then fails with the syntax error of
`ParseFloat`, leaving the receiver alone, whereas `"$10.05"` gives 1005 cents and
`"-10.05"` gives -1005; `"- $10.05"` does not even match the pattern. -/
theorem C16_whitespace_literals_rejected (cvt : F64 → Int) (m : Money) :
    validMoney.matchString (removeChar ',' "$ 10.05".toList) = true ∧
    m.SetString cvt "$ 10.05" = (m, some (.parseFloat " 10.05" .malformed)) ∧
    m.SetString cvt "-$ 10.05" = (m, some (.parseFloat " 10.05" .malformed)) ∧
    m.SetString cvt "- 10.05" = (m, some (.parseFloat "- 10.05" .malformed)) ∧
    m.SetString cvt "- $10.05" = (m, some (.notMoney "- $10.05")) ∧
    m.SetString cvt "$10.05" = (⟨1005, "$10.05"⟩, none) ∧
    m.SetString cvt "-10.05" = (⟨-1005, "-$10.05"⟩, none) := by
  refine ⟨by decide, ?_, ?_, ?_, ?_, ?_, ?_⟩
  · rw [SetString_parse_error cvt m "$ 10.05" .malformed (by decide) (by rfl)]
    rfl
  · rw [SetString_parse_error cvt m "-$ 10.05" .malformed (by decide) (by rfl)]
    rfl
  · rw [SetString_parse_error cvt m "- 10.05" .malformed (by decide) (by rfl)]
    rfl
  · rw [SetString_not_money cvt m "- $10.05" (by decide)]
    rfl
  · rw [SetString_ok cvt m "$10.05" (.finite false (roundMag 1005 100)) 1005
      (by decide) (by rfl) (by decide)]
    decide
  · rw [SetString_ok cvt m "-10.05" (.finite true (roundMag 1005 100)) (-1005)
      (by decide) (by rfl) (by decide)]
    decide

/-- C17.  `SetString` returns an error, and leaves the receiver alone, for every string
that contains no decimal digit; among them the empty string, `"$"`, `"-"`, `"."`,
`"()"` and `"abc"`. -/
theorem C17_digit_free_input_rejected (cvt : F64 → Int) (m : Money) (s : GoString)
    (h : ∀ c ∈ s.toList, isDigit c = false) :
    (m.SetString cvt s).2 ≠ none ∧ (m.SetString cvt s).1 = m := by
  apply SetString_fails
  apply readDecimal_none_of_no_digit
  intro c hc hd
  have hs := h c (mem_of_mem_numeral c s hc)
  unfold isDigit at hs
  simp [hd.1, hd.2] at hs

set_option maxRecDepth 100000 in
/-- Witness for C17: the six strings of the claim have no digit, and `SetString`
returns an error on each of them. -/
theorem C17_digit_free_input_rejected_witness :
    (∀ c ∈ "".toList, isDigit c = false) ∧ (∀ c ∈ "abc".toList, isDigit c = false) ∧
    ((NewMoney 534).SetString cvtAmd64 "").2 ≠ none ∧
    ((NewMoney 534).SetString cvtAmd64 "$").2 ≠ none ∧
    ((NewMoney 534).SetString cvtAmd64 "-").2 ≠ none ∧
    ((NewMoney 534).SetString cvtAmd64 ".").2 ≠ none ∧
    ((NewMoney 534).SetString cvtAmd64 "()").2 ≠ none ∧
    ((NewMoney 534).SetString cvtAmd64 "abc").2 ≠ none ∧
    ((NewMoney 534).SetString cvtAmd64 "abc").1 = NewMoney 534 :=
  ⟨by decide, by decide,
   (C17_digit_free_input_rejected cvtAmd64 (NewMoney 534) "" (by decide)).1,
   (C17_digit_free_input_rejected cvtAmd64 (NewMoney 534) "$" (by decide)).1,
   (C17_digit_free_input_rejected cvtAmd64 (NewMoney 534) "-" (by decide)).1,
   (C17_digit_free_input_rejected cvtAmd64 (NewMoney 534) "." (by decide)).1,
   (C17_digit_free_input_rejected cvtAmd64 (NewMoney 534) "()" (by decide)).1,
   (C17_digit_free_input_rejected cvtAmd64 (NewMoney 534) "abc" (by decide)).1,
   (C17_digit_free_input_rejected cvtAmd64 (NewMoney 534) "abc" (by decide)).2⟩

set_option maxRecDepth 100000 in
/-- C18.  `SetString` accepts `"-0"` and `"-$0.00"` with 0 cents and the display
`"$0.00"`; the rendering of no cents value is `"-$0.00"`; and the rendering starts with
`-` exactly when the cents are below 0. -/
theorem C18_zero_never_renders_negative :
    (∀ (cvt : F64 → Int) (m : Money),
      m.SetString cvt "-0" = (⟨0, "$0.00"⟩, none) ∧
      m.SetString cvt "-$0.00" = (⟨0, "$0.00"⟩, none)) ∧
    (∀ c : Int, stringFromInt c ≠ "-$0.00") ∧
    (∀ c : Int, (NewMoney c).String ≠ "-$0.00") ∧
    (∀ c : Int, ((stringFromInt c).toList.head? == some '-') = decide (c < 0)) := by
  have hne : ∀ c : Int, stringFromInt c ≠ "-$0.00" := by
    intro c
    by_cases hc : c < 0
    · exact stringFromInt_neg_ne c hc
    · intro heq
      have h := stringFromInt_head c
      rw [heq] at h
      simp only [hc, decide_False] at h
      revert h
      decide
  refine ⟨fun cvt m => ⟨?_, ?_⟩, hne, hne, stringFromInt_head⟩
  · rw [SetString_ok cvt m "-0" (.finite true (roundMag 0 1)) 0
      (by decide) (by rfl) (by decide)]
    decide
  · rw [SetString_ok cvt m "-$0.00" (.finite false (roundMag 0 100)) 0
      (by decide) (by rfl) (by decide)]
    decide

/-- C19.  For every `Money` and every input on which `SetString` returns an error
(the pattern does not match, or `ParseFloat` fails), the receiver after the call is the
receiver before it: same cents, same display. -/
theorem C19_set_string_atomic_on_failure (cvt : F64 → Int) (m : Money) (s : GoString)
    (hfail : (m.SetString cvt s).2 ≠ none) :
    (m.SetString cvt s).1 = m ∧ (m.SetString cvt s).1.Int64 = m.Int64 ∧
    (m.SetString cvt s).1.String = m.String := by
  rcases SetString_cases cvt m s with ⟨e, he⟩ | ⟨i, hi⟩
  · rw [he]
    exact ⟨rfl, rfl, rfl⟩
  · rw [hi] at hfail
    exact absurd rfl hfail

set_option maxRecDepth 100000 in
/-- Witness for C19: `NewMoney(534)` is unchanged by `SetString("abc")` (the pattern
does not match) and by `SetString("($10.00)")` (`ParseFloat` fails). -/
theorem C19_set_string_atomic_on_failure_witness :
    ((NewMoney 534).SetString cvtAmd64 "abc").2 = some (.notMoney "abc") ∧
    ((NewMoney 534).SetString cvtAmd64 "abc").1 = NewMoney 534 ∧
    ((NewMoney 534).SetString cvtAmd64 "($10.00)").2 = some (.parseFloat "10.00)" .malformed) ∧
    ((NewMoney 534).SetString cvtAmd64 "($10.00)").1 = NewMoney 534 :=
  ⟨by decide,
   (C19_set_string_atomic_on_failure cvtAmd64 (NewMoney 534) "abc" (by decide)).1,
   by decide,
   (C19_set_string_atomic_on_failure cvtAmd64 (NewMoney 534) "($10.00)" (by decide)).1⟩

end PqMoney
